import Mathlib

/-
Verification of the hierarchical template rendering engine of the Renotech
backend (internal/service/document_template.go and
internal/service/quotation_template.go), as a shallow embedding.

Modelling conventions:
- Go strings are embedded as List Char (called Chars below).
- The dynamic bson.M payload tree is embedded as the inductive type Value
  (Null / Bool / Num / Str / Arr / Obj).  bson.M and map-of-interface objects,
  which the Go code treats identically, are one constructor (vObj).
- Go float64 values are abstracted as exact rationals.  JSON decoding hands
  the Go code float64 for every number, so vNum covers all numeric payloads.
  Formatting functions compute decimal digits by integer arithmetic on the
  numerator and denominator, mirroring what fmt.Sprintf produces on the
  corresponding doubles for every value exercised here.
- Go maps (embeddedHtml, variableHtml, payload objects) are association
  lists.  Go map iteration order is unspecified; the model iterates in list
  order, and theorems that depend on iteration order quantify over the list.
- The mutually recursive pair documentTemplateProcessEmbeddedHtml /
  documentTemplateProcessNestedEmbedded is embedded as one step interpreter
  (runB / run) over a call type, driven by explicit fuel so that everything
  stays kernel-computable; the public wrappers supply a fuel derived from
  the payload size, and run_fuel_congr proves the fuel is irrelevant beyond
  the recursion-depth bound, which is exactly the termination argument.
-/

namespace Renotech

abbrev Chars := List Char

/-- Embedding of strings.HasPrefix: goHasPre pat s decides whether pat is a
prefix of s. -/
def goHasPre : Chars → Chars → Bool
  | [], _ => true
  | _ :: _, [] => false
  | p :: ps, c :: cs => if p = c then goHasPre ps cs else false

/-- Embedding of strings.Contains: goContains sub s decides whether sub occurs
as a contiguous substring of s. -/
def goContains (sub : Chars) : Chars → Bool
  | [] => goHasPre sub []
  | c :: rest => goHasPre sub (c :: rest) || goContains sub rest

/-- Fueled worker for strings.ReplaceAll.  Scans left to right; at a match of
pat it emits rep and skips the match.  A fuel of the length of the subject
string is always sufficient because every step consumes at least one
character.  (Go inserts rep at every position when pat is empty; every caller
in the source passes a nonempty placeholder pattern, and for an empty pattern
this model leaves the string unchanged.) -/
def goReplaceAllF (pat rep : Chars) : Nat → Chars → Chars
  | 0, s => s
  | _ + 1, [] => []
  | fuel + 1, c :: rest =>
    if pat.isEmpty then c :: goReplaceAllF pat rep fuel rest
    else if goHasPre pat (c :: rest) then
      rep ++ goReplaceAllF pat rep fuel ((c :: rest).drop pat.length)
    else c :: goReplaceAllF pat rep fuel rest

/-- Embedding of strings.ReplaceAll(s, pat, rep). -/
def goReplaceAll (s pat rep : Chars) : Chars :=
  goReplaceAllF pat rep s.length s

/-- Embedding of strings.Split(s, ".").  Splits at every dot. -/
def splitDot : Chars → List Chars
  | [] => [[]]
  | c :: rest =>
    if c = '.' then [] :: splitDot rest
    else
      match splitDot rest with
      | [] => [[c]]
      | g :: gs => (c :: g) :: gs

/-- Embedding of strings.Join(parts, "."). -/
def joinDot : List Chars → Chars
  | [] => []
  | [p] => p
  | p :: ps => p ++ '.' :: joinDot ps

/-- Last dot-separated segment of a key (parts[len(parts)-1] in the source). -/
def lastSeg (s : Chars) : Chars :=
  (splitDot s).getLastD []

/-- Parent of a dotted key: all segments but the last, joined with dots
(strings.Join(parts[:len(parts)-1], ".") in the source). -/
def parentKeyOf (key : Chars) : Chars :=
  joinDot (splitDot key).dropLast

/-- Embedding of documentTemplateGetNestingDepth: number of dots in a key
(strings.Count(key, ".")). -/
def documentTemplateGetNestingDepth (key : Chars) : Nat :=
  key.countP (fun c => c = '.')

/-- The placeholder string for a key: two opening braces, the key, two closing
braces (fmt.Sprintf of the key between double braces in the source). -/
def phOf (k : Chars) : Chars :=
  '{' :: '{' :: (k ++ ['}', '}'])

/-- Embedding of strings.TrimSpace (restricted to the whitespace class of
Char.isWhitespace, which covers everything the templates use). -/
def trimSpace (s : Chars) : Chars :=
  ((s.dropWhile Char.isWhitespace).reverse.dropWhile Char.isWhitespace).reverse

/-- Bytewise lexicographic order on strings, as used by Go string comparison
in the sort comparator. -/
def charsLt : Chars → Chars → Bool
  | [], [] => false
  | [], _ :: _ => true
  | _ :: _, [] => false
  | a :: as, b :: bs => if a = b then charsLt as bs else decide (a < b)

/-- Comparator of documentTemplateSortKeysByDepth: ascending depth, then
ascending string order for equal depth. -/
def keyLess (a b : Chars) : Bool :=
  if documentTemplateGetNestingDepth a = documentTemplateGetNestingDepth b then charsLt a b
  else decide (documentTemplateGetNestingDepth a < documentTemplateGetNestingDepth b)

/-- Insertion step of the sort used to model sort.Slice with the keyLess
comparator. -/
def insertKey (k : Chars) : List Chars → List Chars
  | [] => [k]
  | x :: xs => if keyLess x k then x :: insertKey k xs else k :: x :: xs

/-- Embedding of documentTemplateSortKeysByDepth: the keys of the map sorted
by ascending depth, ties broken by string order.  For distinct keys the Go
comparator is a strict total order, so sort.Slice produces this unique
result regardless of its internal instability. -/
def documentTemplateSortKeysByDepth (m : List (Chars × Chars)) : List Chars :=
  (m.map Prod.fst).foldr insertKey []

/-- Character class of the placeholder regex used by
documentTemplateRemoveUnusedPlaceholders: ASCII letters, digits, underscore
and dot. -/
def isPlaceholderChar (c : Char) : Bool :=
  c.isAlpha || c.isDigit || c = '_' || c = '.'

/-- Matcher for one occurrence of the anchored regex of double-braced
placeholders over the isPlaceholderChar class, at the head of the input.
Returns the suffix after the match.  The character class excludes the closing
brace, so the greedy scan needs no backtracking. -/
def matchPlaceholder : Chars → Option Chars
  | '{' :: '{' :: rest =>
    let name := rest.takeWhile isPlaceholderChar
    let rest2 := rest.dropWhile isPlaceholderChar
    if name.isEmpty then none
    else
      match rest2 with
      | '}' :: '}' :: tail => some tail
      | _ => none
  | _ => none

/-- Fueled scanner deleting every regex match, with the leftmost-match
semantics of Go regexp ReplaceAllString. -/
def removeUPF : Nat → Chars → Chars
  | 0, s => s
  | _ + 1, [] => []
  | fuel + 1, c :: rest =>
    match matchPlaceholder (c :: rest) with
    | some tail => removeUPF fuel tail
    | none => c :: removeUPF fuel rest

/-- Embedding of documentTemplateRemoveUnusedPlaceholders: delete every
double-braced placeholder over the allowed character class. -/
def documentTemplateRemoveUnusedPlaceholders (html : Chars) : Chars :=
  removeUPF html.length html

/-- Matcher for one occurrence of the extraction regex: double open braces, a
nonempty run of characters other than the closing brace (the capture group),
then two closing braces.  Returns the captured group and the suffix after the
match. -/
def matchVarBody : Chars → Option (Chars × Chars)
  | '{' :: '{' :: rest =>
    let name := rest.takeWhile (fun c => !(c = '}'))
    let rest2 := rest.dropWhile (fun c => !(c = '}'))
    if name.isEmpty then none
    else
      match rest2 with
      | '}' :: '}' :: tail => some (name, tail)
      | _ => none
  | _ => none

/-- Fueled scanner collecting every captured group in order of occurrence,
trimmed of surrounding whitespace (FindAllStringSubmatch followed by
TrimSpace in the source). -/
def extractVarsF : Nat → Chars → List Chars
  | 0, _ => []
  | _ + 1, [] => []
  | fuel + 1, c :: rest =>
    match matchVarBody (c :: rest) with
    | some (g, tail) => trimSpace g :: extractVarsF fuel tail
    | none => extractVarsF fuel rest

/-- De-duplication preserving first-occurrence order, dropping empty names
(the variableSet filter of the source). -/
def dedupKeep (seen : List Chars) : List Chars → List Chars
  | [] => []
  | v :: vs =>
    if v.isEmpty || seen.contains v then dedupKeep seen vs
    else v :: dedupKeep (v :: seen) vs

/-- Embedding of documentTemplateExtractVariables: ordered, de-duplicated
list of trimmed placeholder names found in the html. -/
def documentTemplateExtractVariables (html : Chars) : List Chars :=
  dedupKeep [] (extractVarsF html.length html)

/-- The ascii character of a decimal digit. -/
def decDigit (d : Nat) : Char := Char.ofNat (48 + d)

/-- Fueled decimal-digit writer for naturals (most significant first).  A fuel
of n + 1 is always sufficient. -/
def natDecF : Nat → Nat → Chars
  | 0, _ => []
  | fuel + 1, n =>
    if n < 10 then [decDigit n]
    else natDecF fuel (n / 10) ++ [decDigit (n % 10)]

/-- Decimal digit string of a natural number. -/
def natDec (n : Nat) : Chars :=
  natDecF (n + 1) n

/-- Left-pads a digit string with zeros to width d. -/
def padZeros (d : Nat) (s : Chars) : Chars :=
  List.replicate (d - s.length) '0' ++ s

/-- Rounding of num/den to the nearest integer, halves away from zero, by
integer arithmetic.  fmt rounds the binary double to nearest; for doubles a
decimal tie at the precisions used here cannot occur, so the tie-breaking
direction is unobservable. -/
def roundHalfUpNat (num den : Nat) : Nat :=
  (2 * num + den) / (2 * den)

/-- Embedding of fmt.Sprintf of a float with a fixed number d of decimals
(the C-style fixed-point conversion): sign, integer digits, a dot and exactly
d fractional digits, correctly rounded. -/
def fixedDecimal (q : ℚ) (d : Nat) : Chars :=
  let n := roundHalfUpNat (q.num.natAbs * 10 ^ d) q.den
  let sign : Chars := if q.num < 0 then ['-'] else []
  if d = 0 then sign ++ natDec n
  else sign ++ natDec (n / 10 ^ d) ++ '.' :: padZeros d (natDec (n % 10 ^ d))

/-- Embedding of documentTemplateFormatFloat: render at 10 decimals, find the
last nonzero fractional digit, keep at least 2 decimals, and re-render at
that count.  The reversed dropWhile computes lastNonZero + 1 of the source
loop; the fallback branch mirrors the dead len(parts) check of the source. -/
def documentTemplateFormatFloat (f : ℚ) : Chars :=
  match splitDot (fixedDecimal f 10) with
  | [_, decimals] =>
    let trimmedLen := ((decimals.reverse).dropWhile (fun c => c = '0')).length
    let decimalCount := if trimmedLen < 2 then 2 else trimmedLen
    fixedDecimal f decimalCount
  | _ => fixedDecimal f 2

/-- Fueled count of the multiplicity of a factor p in n. -/
def factorCountF (p : Nat) : Nat → Nat → Nat
  | 0, _ => 0
  | fuel + 1, n =>
    if 2 ≤ p ∧ n ≠ 0 ∧ n % p = 0 then factorCountF p fuel (n / p) + 1 else 0

/-- Multiplicity of the factor p in n. -/
def factorCount (p n : Nat) : Nat :=
  factorCountF p n n

/-- Embedding of the Go default formatting of a float64 value (the %v verb):
the shortest decimal string that denotes the value.  Under the rational
abstraction this is the exact decimal expansion with no trailing zeros, an
integer rendered without a decimal point.  Deviations, both unreachable from
float64 payload data in range: rationals with a denominator not of the form
2^a * 5^b fall back to a fraction rendering, and the exponent notation Go
uses for extreme magnitudes is not modelled. -/
def goFloatRepr (q : ℚ) : Chars :=
  let sign : Chars := if q.num < 0 then ['-'] else []
  if q.den = 1 then sign ++ natDec q.num.natAbs
  else
    let e2 := factorCount 2 q.den
    let e5 := factorCount 5 q.den
    if q.den = 2 ^ e2 * 5 ^ e5 then
      let e := max e2 e5
      let m := q.num.natAbs * (10 ^ e / q.den)
      sign ++ natDec (m / 10 ^ e) ++ '.' :: padZeros e (natDec (m % 10 ^ e))
    else sign ++ natDec q.num.natAbs ++ '/' :: natDec q.den

/-- Dynamic payload values: the tagged union behind the interface values the
Go code switches on.  vNull is the nil interface (bson null); vObj covers
both map-of-interface and bson.M, which every switch in the source treats
identically. -/
inductive Value where
  | vNull : Value
  | vBool : Bool → Value
  | vNum : ℚ → Value
  | vStr : Chars → Value
  | vArr : List Value → Value
  | vObj : List (Chars × Value) → Value

/-- Payload objects: string-keyed association lists standing for bson.M. -/
abbrev Fields := List (Chars × Value)

/-- Fragment maps (embeddedHtml, variableHtml): string-keyed association
lists of html snippets. -/
abbrev EMap := List (Chars × Chars)

mutual

/-- Structural size of a payload value, the measure of the expander
recursion. -/
def szV : Value → Nat
  | .vArr xs => 1 + szL xs
  | .vObj fs => 1 + szF fs
  | _ => 1

/-- Structural size of a list of payload values. -/
def szL : List Value → Nat
  | [] => 0
  | v :: r => szV v + szL r

/-- Structural size of a payload object. -/
def szF : Fields → Nat
  | [] => 0
  | kv :: r => 1 + szV kv.2 + szF r

end

/-- Association-list lookup, the embedding of a Go map read together with its
ok flag. -/
def lookupA {α : Type} : List (Chars × α) → Chars → Option α
  | [], _ => none
  | (k, v) :: rest, key => if k = key then some v else lookupA rest key

/-- Association-list write, the embedding of a Go map assignment: replaces
the binding if the key is present, appends it otherwise. -/
def setField : Fields → Chars → Value → Fields
  | [], k, v => [(k, v)]
  | (k0, v0) :: rest, k, v =>
    if k0 = k then (k, v) :: rest else (k0, v0) :: setField rest k v

/-- Embedding of documentTemplateGetValueByPath: despite its name and the
commented-out loop in the source, it looks up only the final dot-separated
segment of the path in the given scope. -/
def documentTemplateGetValueByPath (data : Fields) (path : Chars) : Option Value :=
  lookupA data (lastSeg path)

mutual

/-- Embedding of the Go default formatting (the %v verb) of a payload value.
Objects print their entries in model order; Go prints map entries in sorted
key order, which no theorem here depends on since object order in the model
is itself arbitrary. -/
def govString : Value → Chars
  | .vNull => ['<', 'n', 'i', 'l', '>']
  | .vBool true => ['t', 'r', 'u', 'e']
  | .vBool false => ['f', 'a', 'l', 's', 'e']
  | .vNum q => goFloatRepr q
  | .vStr s => s
  | .vArr xs => '[' :: (govList xs ++ [']'])
  | .vObj fs => 'm' :: 'a' :: 'p' :: '[' :: (govFields fs ++ [']'])

/-- Go default formatting of a slice body: entries separated by spaces. -/
def govList : List Value → Chars
  | [] => []
  | [v] => govString v
  | v :: vs => govString v ++ ' ' :: govList vs

/-- Go default formatting of a map body: colon-joined entries separated by
spaces. -/
def govFields : List (Chars × Value) → Chars
  | [] => []
  | [(k, v)] => k ++ ':' :: govString v
  | (k, v) :: fs => (k ++ ':' :: govString v) ++ ' ' :: govFields fs

end

/-- Embedding of documentTemplateConvertToString: nil becomes the empty
string, strings pass through, floats go through
documentTemplateFormatFloat, everything else uses the default %v
formatting. -/
def documentTemplateConvertToString : Value → Chars
  | .vNull => []
  | .vStr s => s
  | .vNum q => documentTemplateFormatFloat q
  | v => govString v

/-- Fueled embedding of documentTemplateReplaceNestedVariables.  For each
field of the current object: nested objects recurse with the extended dotted
key, arrays are skipped (they belong to embedded fragments), every other
value replaces its dotted placeholder via documentTemplateConvertToString.
Each recursive call strictly decreases szF, so a fuel of szF data + 1 is
always sufficient. -/
def rnvF : Nat → Chars → Chars → Fields → Chars
  | 0, html, _, _ => html
  | fuel + 1, html, parentKey, fields =>
    match fields with
    | [] => html
    | (k, v) :: rest =>
      let html2 :=
        match v with
        | .vObj gs => rnvF fuel html (parentKey ++ '.' :: k) gs
        | .vArr _ => html
        | _ => goReplaceAll html (phOf (parentKey ++ '.' :: k)) (documentTemplateConvertToString v)
      rnvF fuel html2 parentKey rest

/-- Embedding of documentTemplateReplaceNestedVariables (public entry with a
sufficient fuel). -/
def documentTemplateReplaceNestedVariables (html parentKey : Chars) (data : Fields) : Chars :=
  rnvF (szF data + 1) html parentKey data

/-- Embedding of documentTemplateReplaceVariables: for every payload entry in
iteration order, replace its placeholder by the default %v formatting of the
value (not by documentTemplateConvertToString). -/
def documentTemplateReplaceVariables (html : Chars) (data : Fields) : Chars :=
  data.foldl (fun h kv => goReplaceAll h (phOf kv.1) (govString kv.2)) html

/-- Calls of the mutually recursive expander pair: emb stands for a
documentTemplateProcessEmbeddedHtml invocation (key, fragment html, data
scope), nested for a documentTemplateProcessNestedEmbedded invocation (html
being rewritten, parent key, item object, remaining iteration entries). -/
inductive Call where
  | emb : Chars → Chars → Fields → Call
  | nested : Chars → Chars → Fields → EMap → Call

/-- Loop of the array-of-objects mode of documentTemplateProcessEmbeddedHtml:
each object element is rendered in its own scope (nested embedded expansion,
then direct field substitution) and appended to the accumulator; non-object
elements are skipped by the continue of the source. -/
def embObjectsLoop (m : EMap) (rec : Call → Chars) (key embeddedHtml : Chars) :
    Chars → List Value → Chars
  | acc, [] => acc
  | acc, item :: rest =>
    match item with
    | .vObj fs =>
      embObjectsLoop m rec key embeddedHtml
        (acc ++ documentTemplateReplaceNestedVariables (rec (.nested embeddedHtml key fs m)) key fs)
        rest
    | _ => embObjectsLoop m rec key embeddedHtml acc rest

/-- Loop of the array-of-primitives mode of
documentTemplateProcessEmbeddedHtml: one copy of the fragment per element
with the bare key placeholder replaced by the default %v formatting. -/
def embPrimsLoop (key embeddedHtml : Chars) : Chars → List Value → Chars
  | acc, [] => acc
  | acc, item :: rest =>
    embPrimsLoop key embeddedHtml (acc ++ goReplaceAll embeddedHtml (phOf key) (govString item)) rest

/-- One body unfolding of the expander pair, with rec standing for the
recursive calls.  This is a line-by-line transcription of
documentTemplateProcessEmbeddedHtml and
documentTemplateProcessNestedEmbedded; m is the full embeddedHtml map that
the Go code threads through every call. -/
def runB (m : EMap) (rec : Call → Chars) : Call → Chars
  | .emb key embeddedHtml data =>
    match documentTemplateGetValueByPath data key with
    | none => []
    | some .vNull => []
    | some (.vArr []) => []
    | some (.vArr (v0 :: vs)) =>
      match v0 with
      | .vObj _ => embObjectsLoop m rec key embeddedHtml [] (v0 :: vs)
      | _ => embPrimsLoop key embeddedHtml [] (v0 :: vs)
    | some (.vObj fs) =>
      documentTemplateReplaceNestedVariables (rec (.nested embeddedHtml key fs m)) key fs
    | some v => govString v
  | .nested html parentKey itemData remaining =>
    match remaining with
    | [] => html
    | (nestedKey, nestedTemplate) :: rest =>
      if goHasPre (parentKey ++ ['.']) nestedKey then
        let ph := phOf nestedKey
        if goContains ph html then
          let fieldName := lastSeg nestedKey
          match lookupA itemData fieldName with
          | some nestedValue =>
            rec (.nested
              (goReplaceAll html ph (rec (.emb nestedKey nestedTemplate [(fieldName, nestedValue)])))
              parentKey itemData rest)
          | none => rec (.nested (goReplaceAll html ph []) parentKey itemData rest)
        else rec (.nested html parentKey itemData rest)
      else rec (.nested html parentKey itemData rest)

/-- Fueled interpreter of the expander pair. -/
def run (m : EMap) : Nat → Call → Chars
  | 0, _ => []
  | fuel + 1, c => runB m (run m fuel) c

/-- Recursion-depth measure of a call: dominated by the size of the data
scope, refined by the length of the remaining iteration list.  Every
recursive call of runB strictly decreases it. -/
def callMu (m : EMap) : Call → Nat
  | .emb _ _ data => (m.length + 3) * szF data + 1
  | .nested _ _ itemData remaining => (m.length + 3) * szF itemData + 2 + remaining.length

/-- Sufficient fuel for a top-level documentTemplateProcessEmbeddedHtml call
on the given scope. -/
def embeddedFuel (m : EMap) (data : Fields) : Nat :=
  (m.length + 3) * szF data + 1

/-- Embedding of documentTemplateProcessEmbeddedHtml (public entry with a
sufficient fuel). -/
def documentTemplateProcessEmbeddedHtml (key embeddedHtml : Chars) (data : Fields) (m : EMap) : Chars :=
  run m (embeddedFuel m data) (.emb key embeddedHtml data)

/-- Embedding of documentTemplateProcessNestedEmbedded (public entry with a
sufficient fuel); the Go function iterates the full map m. -/
def documentTemplateProcessNestedEmbedded (html parentKey : Chars) (itemData : Fields) (m : EMap) : Chars :=
  run m ((m.length + 3) * szF itemData + 2 + m.length) (.nested html parentKey itemData m)

/-- Error codes of the enum package relevant to the engine. -/
inductive ErrorCode where
  | validation : ErrorCode
  | notFound : ErrorCode
  | internal : ErrorCode
deriving DecidableEq

/-- Embedding of model.AppError as produced by utils.SystemError. -/
structure AppError where
  code : ErrorCode
  message : Chars
deriving DecidableEq

/-- First extracted placeholder of an embedded fragment that neither equals
the fragment key nor starts with the key followed by a dot (the inner loop
of documentTemplateValidateEmbeddedHtml). -/
def documentTemplateFindInvalidVar (key : Chars) : List Chars → Option Chars
  | [] => none
  | v :: vs =>
    if !(goHasPre (key ++ ['.']) v) && !(v = key) then some v
    else documentTemplateFindInvalidVar key vs

/-- Validation message for a placeholder that escapes its fragment key. -/
def documentTemplateInvalidVarMsg (vname key : Chars) : Chars :=
  ("Variable \x27").data ++ vname ++ ("\x27 in embeddedHtml[\x27").data ++ key
    ++ ("\x27] must start with \x27").data ++ key ++ (".\x27 key").data

/-- Validation message for a nested key whose parent is absent. -/
def documentTemplateMissingParentMsg (key parent : Chars) : Chars :=
  ("Nested key \x27").data ++ key ++ ("\x27 requires parent \x27").data ++ parent
    ++ ("\x27 to be defined in embeddedHtml").data

/-- Validation message for a parent fragment missing the child placeholder. -/
def documentTemplateMissingPlaceholderMsg (parent key : Chars) : Chars :=
  ("Parent embeddedHtml[\x27").data ++ parent ++ ("\x27] must contain placeholder for nested child ").data ++ key

/-- Per-key loop of documentTemplateValidateEmbeddedHtml, fail-fast on the
first violation: every extracted placeholder must stay under the key, and a
dotted key needs its parent present with the child placeholder literally in
the parent html. -/
def documentTemplateValidateEmbKeys (m : EMap) : List Chars → Option AppError
  | [] => none
  | key :: rest =>
    let html := (lookupA m key).getD []
    match documentTemplateFindInvalidVar key (documentTemplateExtractVariables html) with
    | some vname => some ⟨.validation, documentTemplateInvalidVarMsg vname key⟩
    | none =>
      if goContains ['.'] key then
        let parent := parentKeyOf key
        match lookupA m parent with
        | none => some ⟨.validation, documentTemplateMissingParentMsg key parent⟩
        | some parentHtml =>
          if goContains (phOf key) parentHtml then documentTemplateValidateEmbKeys m rest
          else some ⟨.validation, documentTemplateMissingPlaceholderMsg parent key⟩
      else documentTemplateValidateEmbKeys m rest

/-- Embedding of documentTemplateValidateEmbeddedHtml: none means the map
passed validation, some carries the first VALIDATION error in processing
order. -/
def documentTemplateValidateEmbeddedHtml (embeddedHtml : EMap) : Option AppError :=
  if embeddedHtml.isEmpty then none
  else documentTemplateValidateEmbKeys embeddedHtml (documentTemplateSortKeysByDepth embeddedHtml)

/-- Embedding of database.DocumentTemplate restricted to the fields the
rendering engine reads. -/
structure DocumentTemplate where
  name : Chars
  description : Chars
  html : Chars
  variableHtml : EMap
  embeddedHtml : EMap
  defaultFileName : Chars

/-- Explicit render state: the caller-owned payload map and the internal
working copy the Go code calls processedData.  Every Go map write of the
pipeline is translated as an update of one of these two components, so
frame properties about the caller map are statable. -/
structure RenderState where
  caller : Fields
  processed : Fields

/-- Phase 1 body of documentTemplateProcessHTML for one sorted key: expand
the embedded fragment against the working copy, and for top-level keys write
the resulting string back into the working copy and record the key. -/
def documentTemplatePhase1Step (embedded : EMap) (st : RenderState × List Chars) (key : Chars) :
    RenderState × List Chars :=
  let embeddedTemplate := (lookupA embedded key).getD []
  let processedEmbedded := documentTemplateProcessEmbeddedHtml key embeddedTemplate st.1.processed embedded
  if goContains ['.'] key then st
  else
    ({ st.1 with processed := setField st.1.processed key (.vStr processedEmbedded) }, st.2 ++ [key])

/-- Phase 2 body of documentTemplateProcessHTML for one variable name: if the
working copy binds it to a non-nil value and the variable fragment still
contains its own placeholder, substitute the value into the fragment, run one
more substitution pass against the whole working copy, and store the result
back; otherwise leave the binding unchanged. -/
def documentTemplatePhase2Step (variableHtml : EMap) (st : RenderState) (varName : Chars) : RenderState :=
  let htmlTemplate := (lookupA variableHtml varName).getD []
  match lookupA st.processed varName with
  | none => st
  | some .vNull => st
  | some value =>
    let valueStr := documentTemplateConvertToString value
    let ph := phOf varName
    if goContains ph htmlTemplate then
      let rendered := documentTemplateReplaceVariables (goReplaceAll htmlTemplate ph valueStr) st.processed
      { st with processed := setField st.processed varName (.vStr rendered) }
    else st

/-- Preview stylesheet of documentTemplateWrapForPreview.  Content-faithful
to the source; the whitespace of the Go raw-string literal is collapsed. -/
def documentTemplatePreviewCSS : Chars :=
  ("<style> * \x7b box-sizing: border-box; \x7d body \x7b margin: 0; padding: 20px; background: #f5f5f5; font-family: Arial, sans-serif; \x7d .a4-preview-container \x7b max-width: 890px; margin: 0 auto; \x7d .a4-page \x7b width: 794px; min-height: 1123px; padding: 48px; margin: 0 auto 20px; background: white; box-shadow: 0 0 10px rgba(0,0,0,0.1); position: relative; \x7d .a4-page:last-child \x7b margin-bottom: 0; \x7d @media print \x7b body \x7b background: white; padding: 0; \x7d .a4-preview-container \x7b max-width: none; \x7d .a4-page \x7b box-shadow: none; margin: 0; padding: 0; page-break-after: always; \x7d .a4-page:last-child \x7b page-break-after: auto; \x7d \x7d </style>").data

/-- Embedding of documentTemplateWrapForPreview: wrap the rendered body in
the fixed A4 preview page. -/
def documentTemplateWrapForPreview (content : Chars) : Chars :=
  ("<!DOCTYPE html> <html lang=\"en\"> <head> <meta charset=\"UTF-8\"> <meta name=\"viewport\" content=\"width=device-width, initial-scale=1.0\"> <title>Document Preview</title> ").data
    ++ documentTemplatePreviewCSS
    ++ (" </head> <body> <div class=\"a4-preview-container\"> <div class=\"a4-page\"> ").data
    ++ content
    ++ (" </div> </div> </body> </html>").data

/-- Embedding of documentTemplateProcessHTML with the render state made
explicit.  The first line models the clone loop of the source: the working
copy is initialized from the caller map, and phases 1 and 2 write only to
the working copy.  Every return path of the Go function carries a nil
error, which the always-ok result makes explicit. -/
def documentTemplateProcessHTMLSt (t : DocumentTemplate) (st0 : RenderState) (forPreview : Bool) :
    Except AppError Chars × RenderState :=
  let cloned : RenderState := { st0 with processed := st0.caller }
  let p1 : RenderState × List Chars :=
    if t.embeddedHtml.isEmpty then (cloned, [])
    else (documentTemplateSortKeysByDepth t.embeddedHtml).foldl
      (documentTemplatePhase1Step t.embeddedHtml) (cloned, [])
  let embeddedKeys := p1.2
  let st2 : RenderState :=
    if t.variableHtml.isEmpty then p1.1
    else
      let varNames := t.variableHtml.map Prod.fst
      let varsIn := varNames.filter (fun v => embeddedKeys.contains v)
      let varsNot := varNames.filter (fun v => !(embeddedKeys.contains v))
      (varsIn ++ varsNot).foldl (documentTemplatePhase2Step t.variableHtml) p1.1
  let html1 := documentTemplateReplaceVariables t.html st2.processed
  let html2 := documentTemplateRemoveUnusedPlaceholders html1
  let html3 := if forPreview then documentTemplateWrapForPreview html2 else html2
  (.ok html3, st2)

/-- Embedding of documentTemplateProcessHTML as called by the preview and
generate endpoints: result only. -/
def documentTemplateProcessHTML (t : DocumentTemplate) (data : Fields) (forPreview : Bool) :
    Except AppError Chars :=
  (documentTemplateProcessHTMLSt t ⟨data, []⟩ forPreview).1

/-- Embedding of database.QuotationTemplate restricted to the fields the
alternate renderer reads. -/
structure QuotationTemplate where
  mainHTMLContent : Chars
  cssContent : Chars
  areaHTMLContent : Chars
  variableList : List Chars
  defaultFileName : Chars

/-- Embedding of model.QuotationTemplatePreviewAreaItem (field names as in
the source, including the itemTotalPrince typo). -/
structure QuotationTemplatePreviewAreaItem where
  itemNo : Chars
  itemName : Chars
  itemDescription : Chars
  itemQuantity : Chars
  itemUnit : Chars
  itemUnitPrice : Chars
  itemTotalPrince : Chars

/-- Embedding of model.QuotationTemplatePreviewArea. -/
structure QuotationTemplatePreviewArea where
  areaNameTitle : Chars
  areaName : Chars
  areaDetail : Chars
  areaItems : List QuotationTemplatePreviewAreaItem
  areaSubTotalTitle : Chars
  areaSubTotal : Chars

/-- Fixed row template of quotationTemplateGenerateAreaSectionHTML. -/
def quotationTemplateItemRow (item : QuotationTemplatePreviewAreaItem) : Chars :=
  ("<tr><td class=\"item-number\">").data ++ item.itemNo
    ++ ("</td><td class=\"description\">").data ++ item.itemName
    ++ ("<br />").data ++ item.itemDescription
    ++ ("</td><td class=\"qty\">").data ++ item.itemQuantity
    ++ ("</td><td class=\"unit\">").data ++ item.itemUnit
    ++ ("</td><td class=\"unit-price amount\">").data ++ item.itemUnitPrice
    ++ ("</td><td class=\"total-price amount\">").data ++ item.itemTotalPrince
    ++ ("</td></tr>").data

/-- Embedding of quotationTemplateGenerateAreaSectionHTML: one copy of the
area template per area, area variables substituted, item rows concatenated
into the areaItemRowFunc placeholder. -/
def quotationTemplateGenerateAreaSectionHTML
    (areas : List QuotationTemplatePreviewArea) (areaHTMLContent : Chars) : Chars :=
  areas.foldl
    (fun acc area =>
      let s := areaHTMLContent
      let s := goReplaceAll s (phOf ("areaNameTitle").data) area.areaNameTitle
      let s := goReplaceAll s (phOf ("areaName").data) area.areaName
      let s := goReplaceAll s (phOf ("areaDetail").data) area.areaDetail
      let s := goReplaceAll s (phOf ("areaSubTotalTitle").data) area.areaSubTotalTitle
      let s := goReplaceAll s (phOf ("areaSubTotal").data) area.areaSubTotal
      let itemsHTML := area.areaItems.foldl (fun acc2 item => acc2 ++ quotationTemplateItemRow item) []
      let s := goReplaceAll s (phOf ("areaItemRowFunc").data) itemsHTML
      acc ++ s)
    []

/-- Embedding of quotationTemplateGenerateTermConditionHTML. -/
def quotationTemplateGenerateTermConditionHTML (termConditions : List Chars) : Chars :=
  if termConditions.isEmpty then []
  else
    ("<ol class=\"term-conditions\">").data
      ++ termConditions.foldl
        (fun acc condition =>
          acc ++ ("<li class=\"term-condition-item\">").data ++ condition ++ ("</li>").data)
        []
      ++ ("</ol>").data

/-- Fixed keyword set of quotationTemplateIsPriceVariable. -/
def quotationTemplatePriceKeywords : List Chars :=
  [("price").data, ("total").data, ("subtotal").data, ("amount").data, ("cost").data,
    ("discount").data, ("tax").data, ("sst").data, ("grand").data]

/-- Embedding of quotationTemplateIsPriceVariable: case-insensitive
containment of one of the fixed price keywords. -/
def quotationTemplateIsPriceVariable (variableName : Chars) : Bool :=
  quotationTemplatePriceKeywords.any (fun kw => goContains kw (variableName.map Char.toLower))

/-- Digits of a decimal run as a natural number. -/
def digitsVal (s : Chars) : Nat :=
  s.foldl (fun acc c => acc * 10 + (c.toNat - 48)) 0

/-- Embedding of strconv.ParseFloat restricted to plain decimal syntax with
an optional exponent; hex floats and the infinity and NaN spellings, which
no payload in this system produces, are rejected. -/
def goParseFloat (s : Chars) : Option ℚ :=
  let p1 : Int × Chars :=
    match s with
    | '+' :: r => (1, r)
    | '-' :: r => (-1, r)
    | r => (1, r)
  let ip := p1.2.takeWhile Char.isDigit
  let s2 := p1.2.dropWhile Char.isDigit
  let p2 : Chars × Chars :=
    match s2 with
    | '.' :: r => (r.takeWhile Char.isDigit, r.dropWhile Char.isDigit)
    | r => ([], r)
  let fp := p2.1
  if ip.isEmpty && fp.isEmpty then none
  else
    let mantissa : Int := p1.1 * Int.ofNat (digitsVal (ip ++ fp))
    match p2.2 with
    | [] => some (mkRat mantissa (10 ^ fp.length))
    | e :: r =>
      if e = 'e' || e = 'E' then
        let p3 : Bool × Chars :=
          match r with
          | '+' :: rr => (false, rr)
          | '-' :: rr => (true, rr)
          | rr => (false, rr)
        let ed := p3.2.takeWhile Char.isDigit
        let r2 := p3.2.dropWhile Char.isDigit
        if ed.isEmpty || !r2.isEmpty then none
        else
          let ev := digitsVal ed
          if p3.1 then some (mkRat mantissa (10 ^ (fp.length + ev)))
          else some (mkRat (mantissa * 10 ^ ev) (10 ^ fp.length))
      else none

/-- Embedding of utils.FormatPriceString: coerce the value to a float when
possible and render it with the requested number of decimals; otherwise fall
back to the default %v formatting.  Empty and whitespace-only strings give
the empty string. -/
def FormatPriceString (value : Value) (decimals : Nat) : Chars :=
  match value with
  | .vStr s =>
    if (trimSpace s).isEmpty then []
    else
      match goParseFloat s with
      | some f => fixedDecimal f decimals
      | none => s
  | .vNum f => fixedDecimal f decimals
  | v => govString v

/-- Required-variable scan of QuotationTemplatePreview: the first declared
variable with no binding in the request (a nil binding counts as present,
matching the ok-flag check of the source). -/
def quotationTemplateFirstMissingVariable (variableList : List Chars) (vars : Fields) : Option Chars :=
  match variableList with
  | [] => none
  | v :: vs =>
    match lookupA vars v with
    | some _ => quotationTemplateFirstMissingVariable vs vars
    | none => some v

/-- Message of the required-variable VALIDATION error of the source. -/
def quotationTemplateVarRequiredMsg (vname : Chars) : Chars :=
  ("Variable \x27").data ++ vname ++ ("\x27 is required").data

/-- Embedding of QuotationTemplatePreview after the template fetch (the
database lookup is an external collaborator): required-variable check, then
system section generation, bracket-placeholder substitution, per-variable
substitution with price-aware formatting, and css wrapping. -/
def QuotationTemplatePreview (template : QuotationTemplate) (vars : Fields)
    (areas : List QuotationTemplatePreviewArea) (termConditions : List Chars) :
    Except AppError Chars :=
  match quotationTemplateFirstMissingVariable template.variableList vars with
  | some vname => .error ⟨.validation, quotationTemplateVarRequiredMsg vname⟩
  | none =>
    let areaSectionHTML := quotationTemplateGenerateAreaSectionHTML areas template.areaHTMLContent
    let termConditionHTML := quotationTemplateGenerateTermConditionHTML termConditions
    let html := template.mainHTMLContent
    let html := goReplaceAll html ("[[areaSection]]").data areaSectionHTML
    let html := goReplaceAll html ("[[termConditionSection]]").data termConditionHTML
    let html := vars.foldl
      (fun h kv =>
        let processedValue :=
          if quotationTemplateIsPriceVariable kv.1 then FormatPriceString kv.2 2
          else govString kv.2
        goReplaceAll h (phOf kv.1) processedValue)
      html
    let html :=
      if template.cssContent.isEmpty then html
      else ("<style>").data ++ template.cssContent ++ ("</style>").data ++ html
    .ok html

/-- Concatenation of a list of strings with no separator. -/
def concatChars : List Chars → Chars
  | [] => []
  | s :: rest => s ++ concatChars rest

/-- Modelled from the claim wording: a key is a direct child of another when
it extends it by exactly one dot-separated segment.  Used to compare the
claimed recursion condition with the prefix check the source performs. -/
def isDirectChildKey (p k : Chars) : Bool :=
  goHasPre (p ++ ['.']) k
    && (documentTemplateGetNestingDepth k = documentTemplateGetNestingDepth p + 1)

/-- Modelled from the spec: substitute(html, payload) replacing every
placeholder with formatValue of the bound value, where formatValue is
documentTemplateConvertToString.  To be compared with
documentTemplateReplaceVariables, which uses the default %v formatting. -/
def substituteSpecFormatValue (html : Chars) (data : Fields) : Chars :=
  data.foldl (fun h kv => goReplaceAll h (phOf kv.1) (documentTemplateConvertToString kv.2)) html

/-- Discriminator of the payload values on which the default %v formatting
and documentTemplateConvertToString disagree. -/
def isNullOrNumber : Value → Bool
  | .vNull => true
  | .vNum _ => true
  | _ => false

/-- Modelled from the spec: the trailing-zero trimming that the spec
describes for formatValue, as a string operation on the 10-decimal
rendering: drop trailing fractional zeros but keep at least two fractional
digits.  To be compared with documentTemplateFormatFloat, which re-renders
at the trimmed decimal count. -/
def trimTo2 (s : Chars) : Chars :=
  match splitDot s with
  | [ip, ds] =>
    let t := ((ds.reverse).dropWhile (fun c => c = '0')).reverse
    ip ++ '.' :: (t ++ List.replicate (2 - t.length) '0')
  | _ => s

/-- Strings whose braces occur only as complete well-formed placeholders over
the allowed character class: the empty string, a non-brace character before a
shaped string, or a full placeholder before a shaped string. -/
inductive PlaceholderShaped : Chars → Prop where
  | nil : PlaceholderShaped []
  | char : ∀ (c : Char) (rest : Chars), ¬ c = '{' → ¬ c = '}' → PlaceholderShaped rest →
      PlaceholderShaped (c :: rest)
  | ph : ∀ (name rest : Chars), ¬ name = [] → (∀ ch ∈ name, isPlaceholderChar ch = true) →
      PlaceholderShaped rest → PlaceholderShaped ('{' :: '{' :: (name ++ '}' :: '}' :: rest))

/-
Infrastructure lemmas: size bounds of the expander recursion, congruence of
the expander body in its recursive calls, and fuel irrelevance of the
interpreter beyond the recursion-depth measure.
-/

theorem szV_pos : ∀ v : Value, 1 ≤ szV v := by
  intro v
  cases v <;> simp [szV]

theorem lookupA_szV : ∀ (fs : Fields) (key : Chars) (v : Value),
    lookupA fs key = some v → 1 + szV v ≤ szF fs := by
  intro fs
  induction fs with
  | nil => intro key v h; simp [lookupA] at h
  | cons kv rest ih =>
    intro key v h
    obtain ⟨k0, v0⟩ := kv
    simp only [lookupA] at h
    by_cases hk : k0 = key
    · rw [if_pos hk] at h
      cases h
      simp [szF]
    · rw [if_neg hk] at h
      have := ih key v h
      simp only [szF]
      have := szV_pos v0
      omega

theorem mem_szL : ∀ (xs : List Value) (v : Value), v ∈ xs → szV v ≤ szL xs := by
  intro xs
  induction xs with
  | nil => intro v h; cases h
  | cons x rest ih =>
    intro v h
    rcases List.mem_cons.mp h with h1 | h2
    · subst h1; simp only [szL]; omega
    · have := ih v h2
      have := szV_pos x
      simp only [szL]
      omega

theorem callMu_pos (m : EMap) (c : Call) : 1 ≤ callMu m c := by
  cases c <;> simp only [callMu] <;> omega

theorem muStepNested (M a b : Nat) (hab : a + 2 ≤ b) :
    (M + 3) * a + 2 + M < (M + 3) * b + 1 := by
  have h := Nat.mul_le_mul_left (M + 3) hab
  have h2 : (M + 3) * (a + 2) = (M + 3) * a + 2 * M + 6 := by ring
  rw [h2] at h
  linarith

theorem muStepEmb (M a b r : Nat) (hab : a ≤ b) :
    (M + 3) * a + 1 < (M + 3) * b + 2 + r := by
  have h := Nat.mul_le_mul_left (M + 3) hab
  linarith

theorem arrObj_szF_bound {data : Fields} {key : Chars} {items : List Value} {fs : Fields}
    (hv : documentTemplateGetValueByPath data key = some (.vArr items))
    (hmem : Value.vObj fs ∈ items) : szF fs + 3 ≤ szF data := by
  have h1 := lookupA_szV data (lastSeg key) (.vArr items) hv
  have h2 := mem_szL items (.vObj fs) hmem
  simp only [szV] at h1 h2
  omega

theorem singleObj_szF_bound {data : Fields} {key : Chars} {fs : Fields}
    (hv : documentTemplateGetValueByPath data key = some (.vObj fs)) :
    szF fs + 2 ≤ szF data := by
  have h1 := lookupA_szV data (lastSeg key) (.vObj fs) hv
  simp only [szV] at h1
  omega

theorem tempData_szF_bound {item : Fields} {fn : Chars} {nv : Value}
    (hl : lookupA item fn = some nv) : szF [(fn, nv)] ≤ szF item := by
  have := lookupA_szV item fn nv hl
  simp only [szF]
  omega

theorem embObjectsLoop_congr (m : EMap) (f g : Call → Chars) (key html : Chars) :
    ∀ (items : List Value) (acc : Chars),
      (∀ fs, Value.vObj fs ∈ items → f (.nested html key fs m) = g (.nested html key fs m)) →
      embObjectsLoop m f key html acc items = embObjectsLoop m g key html acc items := by
  intro items
  induction items with
  | nil => intro acc _; rfl
  | cons item rest ih =>
    intro acc hall
    cases item <;> simp only [embObjectsLoop] <;>
      try exact ih _ (fun fs2 hmem => hall fs2 (List.mem_cons_of_mem _ hmem))
    case vObj fs =>
      rw [hall fs (List.mem_cons_self _ _)]
      exact ih _ (fun fs2 hmem => hall fs2 (List.mem_cons_of_mem _ hmem))

theorem runB_congr (m : EMap) (f g : Call → Chars) (c : Call)
    (h : ∀ c2, callMu m c2 < callMu m c → f c2 = g c2) :
    runB m f c = runB m g c := by
  cases c with
  | emb key html data =>
    simp only [runB]
    cases hv : documentTemplateGetValueByPath data key with
    | none => rfl
    | some v =>
      cases v with
      | vNull => rfl
      | vBool b => rfl
      | vNum q => rfl
      | vStr s => rfl
      | vArr items =>
        cases items with
        | nil => rfl
        | cons v0 vs =>
          cases v0 <;> try rfl
          case vObj fs0 =>
            apply embObjectsLoop_congr
            intro fs hmem
            apply h
            have hb := arrObj_szF_bound hv hmem
            simp only [callMu]
            exact muStepNested m.length _ _ (by omega)
      | vObj fs =>
        have hb := singleObj_szF_bound hv
        exact congrArg (fun x => documentTemplateReplaceNestedVariables x key fs)
          (h (.nested html key fs m)
            (by simp only [callMu]; exact muStepNested m.length _ _ (by omega)))
  | nested html pk item rem =>
    cases rem with
    | nil => rfl
    | cons kt rest =>
      obtain ⟨nk, nt⟩ := kt
      simp only [runB]
      by_cases hpre : goHasPre (pk ++ ['.']) nk = true
      · simp only [if_pos hpre]
        by_cases hcont : goContains (phOf nk) html = true
        · simp only [if_pos hcont]
          cases hl : lookupA item (lastSeg nk) with
          | some nv =>
            have hb := tempData_szF_bound hl
            have hinner : callMu m (.emb nk nt [(lastSeg nk, nv)]) <
                callMu m (.nested html pk item ((nk, nt) :: rest)) := by
              simp only [callMu, List.length_cons]
              exact muStepEmb m.length _ _ _ hb
            have houter : ∀ s, callMu m (.nested s pk item rest) <
                callMu m (.nested html pk item ((nk, nt) :: rest)) := by
              intro s
              simp only [callMu, List.length_cons]
              omega
            exact (h (.nested (goReplaceAll html (phOf nk) (f (.emb nk nt [(lastSeg nk, nv)]))) pk item rest)
                (houter _)).trans
              (congrArg (fun x => g (.nested (goReplaceAll html (phOf nk) x) pk item rest))
                (h (.emb nk nt [(lastSeg nk, nv)]) hinner))
          | none =>
            exact h (.nested (goReplaceAll html (phOf nk) []) pk item rest)
              (by simp only [callMu, List.length_cons]; omega)
        · simp only [if_neg hcont]
          exact h (.nested html pk item rest) (by simp only [callMu, List.length_cons]; omega)
      · simp only [if_neg hpre]
        exact h (.nested html pk item rest) (by simp only [callMu, List.length_cons]; omega)

theorem run_fuel_congr (m : EMap) :
    ∀ (n : Nat) (c : Call) (f1 f2 : Nat), callMu m c ≤ n → callMu m c ≤ f1 → callMu m c ≤ f2 →
      run m f1 c = run m f2 c := by
  intro n
  induction n with
  | zero =>
    intro c f1 f2 h0 _ _
    have := callMu_pos m c
    omega
  | succ n ih =>
    intro c f1 f2 hn h1 h2
    have hpos := callMu_pos m c
    cases f1 with
    | zero => omega
    | succ a =>
      cases f2 with
      | zero => omega
      | succ b =>
        show runB m (run m a) c = runB m (run m b) c
        apply runB_congr
        intro c2 hc2
        exact ih c2 a b (by omega) (by omega) (by omega)

theorem processEmbedded_unfold (key html : Chars) (data : Fields) (m : EMap) :
    documentTemplateProcessEmbeddedHtml key html data m =
      runB m (run m ((m.length + 3) * szF data)) (.emb key html data) := rfl

theorem run_eq_processNested {m : EMap} {html pk : Chars} {item : Fields} {f : Nat}
    (hf : (m.length + 3) * szF item + 2 + m.length ≤ f) :
    run m f (.nested html pk item m) = documentTemplateProcessNestedEmbedded html pk item m :=
  run_fuel_congr m f (.nested html pk item m) f ((m.length + 3) * szF item + 2 + m.length)
    hf hf (le_refl _)

/-- C3: corrected.  The source performs no cycle detection, but the claimed
unbounded recursion cannot occur: documentTemplateProcessNestedEmbedded only
recurses into map keys that strictly extend the current key, on a strictly
smaller data scope, so the recursion depth of fragment expansion is bounded
by embeddedFuel, a computable function of the inputs.  Formally, the
interpreter result is the same for every fuel from embeddedFuel on, i.e.
fragment expansion on every input, cyclic maps included, terminates with the
value computed by documentTemplateProcessEmbeddedHtml. -/
theorem documentTemplateProcessEmbeddedHtml_terminates :
    ∀ (m : EMap) (key html : Chars) (data : Fields) (fuel : Nat),
      embeddedFuel m data ≤ fuel →
      run m fuel (.emb key html data) = documentTemplateProcessEmbeddedHtml key html data m := by
  intro m key html data fuel hf
  exact run_fuel_congr m fuel (.emb key html data) fuel (embeddedFuel m data) hf hf (le_refl _)

/-- C3 witness: the termination theorem applied to a concrete one-fragment
map and payload at a fuel above the bound. -/
theorem documentTemplateProcessEmbeddedHtml_terminates_witness :
    embeddedFuel [(("a").data, phOf ("a").data)] [(("a").data, Value.vStr ("v").data)] ≤ 50
    ∧ run [(("a").data, phOf ("a").data)] 50
        (.emb ("a").data (phOf ("a").data) [(("a").data, Value.vStr ("v").data)])
      = documentTemplateProcessEmbeddedHtml ("a").data (phOf ("a").data)
          [(("a").data, Value.vStr ("v").data)] [(("a").data, phOf ("a").data)] :=
  ⟨by decide,
    documentTemplateProcessEmbeddedHtml_terminates [(("a").data, phOf ("a").data)]
      ("a").data (phOf ("a").data) [(("a").data, Value.vStr ("v").data)] 50 (by decide)⟩

/-- C3 counterexample to the claim as stated: the mutual-reference fragment
map of the claim (fragment A whose html is the placeholder of B and fragment
B whose html is the placeholder of A) expands to a definite final string, and
the run is already stable at fuel 60 versus fuel 6000.  Neither key passes
the strict-extension prefix check against the other, so the pair drives no
recursion at all. -/
theorem documentTemplateProcessEmbeddedHtml_cycle_map_result :
    documentTemplateProcessEmbeddedHtml ("A").data (phOf ("B").data)
        [(("A").data, Value.vArr [Value.vObj [(("x").data, Value.vStr ("1").data)]])]
        [(("A").data, phOf ("B").data), (("B").data, phOf ("A").data)]
      = phOf ("B").data
    ∧ run [(("A").data, phOf ("B").data), (("B").data, phOf ("A").data)] 60
        (.emb ("A").data (phOf ("B").data)
          [(("A").data, Value.vArr [Value.vObj [(("x").data, Value.vStr ("1").data)]])])
      = run [(("A").data, phOf ("B").data), (("B").data, phOf ("A").data)] 6000
        (.emb ("A").data (phOf ("B").data)
          [(("A").data, Value.vArr [Value.vObj [(("x").data, Value.vStr ("1").data)]])])
    ∧ goHasPre (("A").data ++ ['.']) ("B").data = false
    ∧ goHasPre (("B").data ++ ['.']) ("A").data = false := by
  exact ⟨by decide, by decide, by decide, by decide⟩

/-- C8: confirmed.  documentTemplateProcessEmbeddedHtml returns the empty
string when the value looked up for the last segment of the key is missing,
nil, or an empty array, and returns the plain default string form of a
scalar value without consulting the fragment html (the html and the map are
universally quantified, so the result cannot depend on them). -/
theorem documentTemplateProcessEmbeddedHtml_base_cases :
    ∀ (key html : Chars) (data : Fields) (m : EMap),
      (documentTemplateGetValueByPath data key = none →
        documentTemplateProcessEmbeddedHtml key html data m = [])
      ∧ (documentTemplateGetValueByPath data key = some .vNull →
        documentTemplateProcessEmbeddedHtml key html data m = [])
      ∧ (documentTemplateGetValueByPath data key = some (.vArr []) →
        documentTemplateProcessEmbeddedHtml key html data m = [])
      ∧ (∀ s, documentTemplateGetValueByPath data key = some (.vStr s) →
        documentTemplateProcessEmbeddedHtml key html data m = s)
      ∧ (∀ q, documentTemplateGetValueByPath data key = some (.vNum q) →
        documentTemplateProcessEmbeddedHtml key html data m = goFloatRepr q)
      ∧ (∀ b, documentTemplateGetValueByPath data key = some (.vBool b) →
        documentTemplateProcessEmbeddedHtml key html data m = govString (.vBool b)) := by
  intro key html data m
  rw [processEmbedded_unfold]
  refine ⟨fun hv => ?_, fun hv => ?_, fun hv => ?_, fun s hv => ?_, fun q hv => ?_, fun b hv => ?_⟩
  · simp only [runB, hv]
  · simp only [runB, hv]
  · simp only [runB, hv]
  · simp only [runB, hv, govString]
  · simp only [runB, hv, govString]
  · simp only [runB, hv]

/-- C8 witness: the base-case theorem applied to a concrete scope holding a
string scalar. -/
theorem documentTemplateProcessEmbeddedHtml_base_cases_witness :
    documentTemplateGetValueByPath [(("k").data, Value.vStr ("V").data)] ("k").data
      = some (Value.vStr ("V").data)
    ∧ documentTemplateProcessEmbeddedHtml ("k").data ("HTML").data
        [(("k").data, Value.vStr ("V").data)] [] = ("V").data :=
  ⟨rfl,
    (documentTemplateProcessEmbeddedHtml_base_cases ("k").data ("HTML").data
      [(("k").data, Value.vStr ("V").data)] []).2.2.2.1 ("V").data rfl⟩

theorem embObjectsLoop_eq_join (m : EMap) (rec : Call → Chars) (key html : Chars) :
    ∀ (items : List Value) (acc : Chars),
      embObjectsLoop m rec key html acc items =
        acc ++ concatChars (items.map (fun item =>
          match item with
          | .vObj fs => documentTemplateReplaceNestedVariables (rec (.nested html key fs m)) key fs
          | _ => [])) := by
  intro items
  induction items with
  | nil => intro acc; simp only [embObjectsLoop, List.map_nil, concatChars, List.append_nil]
  | cons item rest ih =>
    intro acc
    cases item with
    | vObj fs => simp only [embObjectsLoop, List.map_cons, concatChars, ih, List.append_assoc]
    | vNull => simp only [embObjectsLoop, List.map_cons, concatChars, ih, List.nil_append]
    | vBool b => simp only [embObjectsLoop, List.map_cons, concatChars, ih, List.nil_append]
    | vNum q => simp only [embObjectsLoop, List.map_cons, concatChars, ih, List.nil_append]
    | vStr s => simp only [embObjectsLoop, List.map_cons, concatChars, ih, List.nil_append]
    | vArr xs => simp only [embObjectsLoop, List.map_cons, concatChars, ih, List.nil_append]

/-- C7: confirmed.  Scenario B renders the two-element list fragment to the
concatenation of its per-element renders, and in general, for every
array-of-objects value, documentTemplateProcessEmbeddedHtml is the
concatenation, in array order and with no separator, of the per-element
renders, where each element is processed in its own scope (nested embedded
expansion of its fields, then direct field substitution) and non-object
elements contribute nothing. -/
theorem documentTemplateProcessEmbeddedHtml_scenario_b :
    (documentTemplateProcessEmbeddedHtml ("items").data
        (("<li>").data ++ phOf ("items.label").data ++ ("</li>").data)
        [(("items").data, Value.vArr [Value.vObj [(("label").data, Value.vStr ("A").data)],
          Value.vObj [(("label").data, Value.vStr ("B").data)]])]
        [(("items").data, ("<li>").data ++ phOf ("items.label").data ++ ("</li>").data)]
      = ("<li>A</li><li>B</li>").data)
    ∧ ∀ (m : EMap) (key html : Chars) (data : Fields) (fs0 : Fields) (vs : List Value),
        documentTemplateGetValueByPath data key = some (.vArr (.vObj fs0 :: vs)) →
        documentTemplateProcessEmbeddedHtml key html data m =
          concatChars ((Value.vObj fs0 :: vs).map (fun item =>
            match item with
            | .vObj fs =>
              documentTemplateReplaceNestedVariables
                (documentTemplateProcessNestedEmbedded html key fs m) key fs
            | _ => [])) := by
  constructor
  · decide
  · intro m key html data fs0 vs hv
    rw [processEmbedded_unfold]
    simp only [runB, hv]
    rw [embObjectsLoop_eq_join]
    simp only [List.nil_append]
    apply congrArg concatChars
    apply List.map_congr_left
    intro item hmem
    cases item <;> try rfl
    case vObj fs =>
      have hb := arrObj_szF_bound hv hmem
      have hbound : (m.length + 3) * szF fs + 2 + m.length ≤ (m.length + 3) * szF data := by
        have h2 := Nat.mul_le_mul_left (m.length + 3) (show szF fs + 3 ≤ szF data by omega)
        have h3 : (m.length + 3) * (szF fs + 3) = (m.length + 3) * szF fs + 3 * m.length + 9 := by
          ring
        linarith
      exact congrArg (fun x => documentTemplateReplaceNestedVariables x key fs)
        (run_eq_processNested hbound)

/-- C7 witness: the array-of-objects decomposition applied to the Scenario B
input. -/
theorem documentTemplateProcessEmbeddedHtml_scenario_b_witness :
    documentTemplateProcessEmbeddedHtml ("items").data
        (("<li>").data ++ phOf ("items.label").data ++ ("</li>").data)
        [(("items").data, Value.vArr [Value.vObj [(("label").data, Value.vStr ("A").data)],
          Value.vObj [(("label").data, Value.vStr ("B").data)]])]
        [(("items").data, ("<li>").data ++ phOf ("items.label").data ++ ("</li>").data)]
      = concatChars (([Value.vObj [(("label").data, Value.vStr ("A").data)],
          Value.vObj [(("label").data, Value.vStr ("B").data)]] : List Value).map (fun item =>
          match item with
          | .vObj fs =>
            documentTemplateReplaceNestedVariables
              (documentTemplateProcessNestedEmbedded
                (("<li>").data ++ phOf ("items.label").data ++ ("</li>").data) ("items").data fs
                [(("items").data, ("<li>").data ++ phOf ("items.label").data ++ ("</li>").data)])
              ("items").data fs
          | _ => [])) :=
  (documentTemplateProcessEmbeddedHtml_scenario_b).2
    [(("items").data, ("<li>").data ++ phOf ("items.label").data ++ ("</li>").data)]
    ("items").data (("<li>").data ++ phOf ("items.label").data ++ ("</li>").data)
    [(("items").data, Value.vArr [Value.vObj [(("label").data, Value.vStr ("A").data)],
      Value.vObj [(("label").data, Value.vStr ("B").data)]])]
    [(("label").data, Value.vStr ("A").data)]
    [Value.vObj [(("label").data, Value.vStr ("B").data)]] rfl

theorem nested_no_placeholder (m : EMap) (pk : Chars) (item : Fields) :
    ∀ (rem : EMap) (html : Chars) (f : Nat), rem.length < f →
      (∀ kt ∈ rem, goHasPre (pk ++ ['.']) kt.1 = true → goContains (phOf kt.1) html = false) →
      run m f (.nested html pk item rem) = html := by
  intro rem
  induction rem with
  | nil =>
    intro html f hf _
    cases f with
    | zero => omega
    | succ g => rfl
  | cons kt rest ih =>
    intro html f hf hall
    obtain ⟨nk, nt⟩ := kt
    cases f with
    | zero => simp at hf
    | succ g =>
      show runB m (run m g) (.nested html pk item ((nk, nt) :: rest)) = html
      simp only [runB]
      by_cases hpre : goHasPre (pk ++ ['.']) nk = true
      · have hc := hall (nk, nt) (List.mem_cons_self _ _) hpre
        simp only [if_pos hpre, hc]
        exact ih html g (by simp at hf ⊢; omega)
          (fun kt2 hmem => hall kt2 (List.mem_cons_of_mem _ hmem))
      · simp only [if_neg hpre]
        exact ih html g (by simp at hf ⊢; omega)
          (fun kt2 hmem => hall kt2 (List.mem_cons_of_mem _ hmem))

theorem nested_filter_eq (m : EMap) (pk : Chars) (item : Fields) :
    ∀ (rem : EMap) (html : Chars) (f1 f2 : Nat),
      (m.length + 3) * szF item + 2 + rem.length ≤ f1 →
      (m.length + 3) * szF item + 2 + rem.length ≤ f2 →
      run m f1 (.nested html pk item (rem.filter (fun kt => goHasPre (pk ++ ['.']) kt.1))) =
        run m f2 (.nested html pk item rem) := by
  intro rem
  induction rem with
  | nil =>
    intro html f1 f2 h1 h2
    cases f1 with
    | zero => omega
    | succ a =>
      cases f2 with
      | zero => omega
      | succ b => rfl
  | cons kt rest ih =>
    intro html f1 f2 h1 h2
    obtain ⟨nk, nt⟩ := kt
    simp only [List.length_cons] at h1 h2
    by_cases hpre : goHasPre (pk ++ ['.']) nk = true
    · rw [List.filter_cons_of_pos (by simpa using hpre)]
      cases f1 with
      | zero => omega
      | succ a =>
        cases f2 with
        | zero => omega
        | succ b =>
          show runB m (run m a) (.nested html pk item ((nk, nt) :: List.filter _ rest)) =
            runB m (run m b) (.nested html pk item ((nk, nt) :: rest))
          simp only [runB, if_pos hpre]
          by_cases hcont : goContains (phOf nk) html = true
          · simp only [if_pos hcont]
            cases hl : lookupA item (lastSeg nk) with
            | some nv =>
              have hb := tempData_szF_bound hl
              have hbe : callMu m (.emb nk nt [(lastSeg nk, nv)]) ≤ a := by
                simp only [callMu]
                have := Nat.mul_le_mul_left (m.length + 3) hb
                omega
              have hbe2 : callMu m (.emb nk nt [(lastSeg nk, nv)]) ≤ b := by
                simp only [callMu]
                have := Nat.mul_le_mul_left (m.length + 3) hb
                omega
              have he : run m a (.emb nk nt [(lastSeg nk, nv)])
                  = run m b (.emb nk nt [(lastSeg nk, nv)]) :=
                run_fuel_congr m (a + b + 1) _ a b (by omega) hbe hbe2
              show run m a (.nested
                  (goReplaceAll html (phOf nk) (run m a (.emb nk nt [(lastSeg nk, nv)])))
                  pk item (List.filter (fun kt => goHasPre (pk ++ ['.']) kt.1) rest))
                = run m b (.nested
                  (goReplaceAll html (phOf nk) (run m b (.emb nk nt [(lastSeg nk, nv)])))
                  pk item rest)
              rw [he]
              exact ih (goReplaceAll html (phOf nk) (run m b (.emb nk nt [(lastSeg nk, nv)])))
                a b (by omega) (by omega)
            | none =>
              exact ih (goReplaceAll html (phOf nk) []) a b (by omega) (by omega)
          · simp only [if_neg hcont]
            exact ih html a b (by omega) (by omega)
    · rw [List.filter_cons_of_neg (by simpa using hpre)]
      cases f2 with
      | zero => omega
      | succ b =>
        have step : run m (b + 1) (.nested html pk item ((nk, nt) :: rest))
            = run m b (.nested html pk item rest) := by
          show runB m (run m b) (.nested html pk item ((nk, nt) :: rest))
            = run m b (.nested html pk item rest)
          simp only [runB, if_neg hpre]
        rw [step]
        exact ih html f1 b (by omega) (by omega)

/-- C4: corrected.  At each expansion level the recursion is placeholder
driven, but the key condition is a strict-extension prefix check, not a
direct-child check: entries of the iteration list whose key does not extend
the current key by a dot are ignored entirely (filtering them away does not
change the result), and when no extending key has its placeholder in the
current snippet the snippet is returned unchanged; descendants of any depth,
not only direct children, are expanded when their placeholder occurs. -/
theorem documentTemplateProcessNestedEmbedded_placeholder_driven :
    ∀ (m : EMap) (pk html : Chars) (item : Fields) (rem : EMap) (f1 f2 : Nat),
      (m.length + 3) * szF item + 2 + rem.length ≤ f1 →
      (m.length + 3) * szF item + 2 + rem.length ≤ f2 →
      (run m f1 (.nested html pk item (rem.filter (fun kt => goHasPre (pk ++ ['.']) kt.1)))
        = run m f2 (.nested html pk item rem))
      ∧ ((∀ kt ∈ rem, goHasPre (pk ++ ['.']) kt.1 = true → goContains (phOf kt.1) html = false) →
          run m f2 (.nested html pk item rem) = html) := by
  intro m pk html item rem f1 f2 h1 h2
  constructor
  · exact nested_filter_eq m pk item rem html f1 f2 h1 h2
  · intro hall
    exact nested_no_placeholder m pk item rem html f2 (by omega) hall

/-- C4 witness: the placeholder-driven characterization applied to a
one-entry map whose key does not extend the parent key. -/
theorem documentTemplateProcessNestedEmbedded_placeholder_driven_witness :
    (3 + 3) * szF [(("x").data, Value.vStr ("1").data)] + 2
        + ([(("B").data, ("t").data)] : EMap).length ≤ 20
    ∧ (run [(("B").data, ("t").data), (("c").data, ("u").data), (("d").data, ("w").data)] 20
        (.nested ("H").data ("A").data [(("x").data, Value.vStr ("1").data)]
          (([(("B").data, ("t").data)] : EMap).filter
            (fun kt => goHasPre (("A").data ++ ['.']) kt.1)))
      = run [(("B").data, ("t").data), (("c").data, ("u").data), (("d").data, ("w").data)] 20
        (.nested ("H").data ("A").data [(("x").data, Value.vStr ("1").data)]
          [(("B").data, ("t").data)]))
    ∧ run [(("B").data, ("t").data), (("c").data, ("u").data), (("d").data, ("w").data)] 20
        (.nested ("H").data ("A").data [(("x").data, Value.vStr ("1").data)]
          [(("B").data, ("t").data)]) = ("H").data := by
  refine ⟨by decide, ?_, ?_⟩
  · exact (documentTemplateProcessNestedEmbedded_placeholder_driven
      [(("B").data, ("t").data), (("c").data, ("u").data), (("d").data, ("w").data)]
      ("A").data ("H").data [(("x").data, Value.vStr ("1").data)]
      [(("B").data, ("t").data)] 20 20 (by decide) (by decide)).1
  · exact (documentTemplateProcessNestedEmbedded_placeholder_driven
      [(("B").data, ("t").data), (("c").data, ("u").data), (("d").data, ("w").data)]
      ("A").data ("H").data [(("x").data, Value.vStr ("1").data)]
      [(("B").data, ("t").data)] 20 20 (by decide) (by decide)).2 (by decide)

/-- C4 counterexample to the claim as stated: a fragment keyed two levels
below the current key (not a direct child) whose placeholder occurs in the
snippet is expanded: the grandchild placeholder is substituted by the
expansion of the grandchild fragment, which looks up the last segment of the
key in the current element scope. -/
theorem documentTemplateProcessEmbeddedHtml_grandchild_expanded :
    documentTemplateProcessEmbeddedHtml ("a").data
        (("<x>").data ++ phOf ("a.b.c").data ++ ("</x>").data)
        [(("a").data, Value.vObj [(("c").data, Value.vStr ("V").data)])]
        [(("a").data, ("<x>").data ++ phOf ("a.b.c").data ++ ("</x>").data),
          (("a.b.c").data, ("ignored").data)]
      = ("<x>V</x>").data
    ∧ isDirectChildKey ("a").data ("a.b.c").data = false
    ∧ goContains (phOf ("a.b.c").data)
        (("<x>").data ++ phOf ("a.b.c").data ++ ("</x>").data) = true := by
  exact ⟨by decide, by decide, by decide⟩

theorem takeWhile_append_all (p : Char → Bool) :
    ∀ (name l : Chars), (∀ ch ∈ name, p ch = true) →
      (name ++ l).takeWhile p = name ++ l.takeWhile p := by
  intro name
  induction name with
  | nil => intro l _; simp
  | cons c rest ih =>
    intro l hall
    have hc := hall c (List.mem_cons_self _ _)
    simp only [List.cons_append, List.takeWhile_cons, hc, if_true]
    rw [ih l (fun ch hm => hall ch (List.mem_cons_of_mem _ hm))]

theorem dropWhile_append_all (p : Char → Bool) :
    ∀ (name l : Chars), (∀ ch ∈ name, p ch = true) →
      (name ++ l).dropWhile p = l.dropWhile p := by
  intro name
  induction name with
  | nil => intro l _; simp
  | cons c rest ih =>
    intro l hall
    have hc := hall c (List.mem_cons_self _ _)
    simp only [List.cons_append, List.dropWhile_cons, hc, if_true]
    exact ih l (fun ch hm => hall ch (List.mem_cons_of_mem _ hm))

theorem matchPlaceholder_ph (name rest : Chars) (hne : ¬ name = [])
    (hall : ∀ ch ∈ name, isPlaceholderChar ch = true) :
    matchPlaceholder ('{' :: '{' :: (name ++ '}' :: '}' :: rest)) = some rest := by
  cases name with
  | nil => exact absurd rfl hne
  | cons c0 ntl =>
    simp only [matchPlaceholder]
    rw [takeWhile_append_all isPlaceholderChar (c0 :: ntl) ('}' :: '}' :: rest) hall]
    rw [dropWhile_append_all isPlaceholderChar (c0 :: ntl) ('}' :: '}' :: rest) hall]
    rfl

theorem matchPlaceholder_none_of_ne (c : Char) (rest : Chars) (hc : ¬ c = '{') :
    matchPlaceholder (c :: rest) = none := by
  unfold matchPlaceholder
  split
  · rename_i heq
    injection heq with h1 _
    exact absurd h1 hc
  · rfl

theorem matchPlaceholder_length : ∀ (s t : Chars), matchPlaceholder s = some t →
    t.length + 5 ≤ s.length := by
  intro s t h
  unfold matchPlaceholder at h
  split at h
  · rename_i rest
    have hsplit : rest.takeWhile isPlaceholderChar ++ rest.dropWhile isPlaceholderChar = rest :=
      List.takeWhile_append_dropWhile isPlaceholderChar rest
    simp only at h
    split at h
    · exact absurd h (by simp)
    · rename_i hne
      split at h
      · rename_i tail heq
        cases h
        have hlen : rest.length = (rest.takeWhile isPlaceholderChar).length
            + (rest.dropWhile isPlaceholderChar).length := by
          rw [← List.length_append, hsplit]
        have h1 : 1 ≤ (rest.takeWhile isPlaceholderChar).length := by
          cases htk : rest.takeWhile isPlaceholderChar with
          | nil => rw [htk] at hne; simp at hne
          | cons a b => simp
        rw [heq] at hlen
        simp only [List.length_cons] at hlen
        simp only [List.length_cons]
        omega
      · exact absurd h (by simp)
  · exact absurd h (by simp)

theorem removeUPF_fuel : ∀ (f1 : Nat) (s : Chars) (f2 : Nat),
    s.length ≤ f1 → s.length ≤ f2 → removeUPF f1 s = removeUPF f2 s := by
  intro f1
  induction f1 with
  | zero =>
    intro s f2 h1 _
    have : s = [] := List.eq_nil_of_length_eq_zero (by omega)
    subst this
    cases f2 <;> rfl
  | succ g ih =>
    intro s f2 h1 h2
    cases s with
    | nil => cases f2 <;> rfl
    | cons c rest =>
      cases f2 with
      | zero => simp at h2
      | succ g2 =>
        simp only [removeUPF]
        cases hm : matchPlaceholder (c :: rest) with
        | some tail =>
          have := matchPlaceholder_length (c :: rest) tail hm
          simp only [List.length_cons] at h1 h2 this
          exact ih tail g2 (by omega) (by omega)
        | none =>
          simp only [List.length_cons] at h1 h2
          rw [ih rest g2 (by omega) (by omega)]

theorem removeUPF_no_brace : ∀ (f : Nat) (s : Chars), '{' ∉ s → removeUPF f s = s := by
  intro f
  induction f with
  | zero => intro s _; rfl
  | succ g ih =>
    intro s hs
    cases s with
    | nil => rfl
    | cons c rest =>
      have hc : ¬ c = '{' := fun h => hs (h ▸ List.mem_cons_self _ _)
      simp only [removeUPF, matchPlaceholder_none_of_ne c rest hc]
      rw [ih rest (fun h => hs (List.mem_cons_of_mem _ h))]

theorem removeUP_char_step (c : Char) (rest : Chars) (hc : ¬ c = '{') :
    documentTemplateRemoveUnusedPlaceholders (c :: rest)
      = c :: documentTemplateRemoveUnusedPlaceholders rest := by
  unfold documentTemplateRemoveUnusedPlaceholders
  simp only [List.length_cons, removeUPF, matchPlaceholder_none_of_ne c rest hc]

theorem removeUP_ph_step (name rest : Chars) (hne : ¬ name = [])
    (hall : ∀ ch ∈ name, isPlaceholderChar ch = true) :
    documentTemplateRemoveUnusedPlaceholders ('{' :: '{' :: (name ++ '}' :: '}' :: rest))
      = documentTemplateRemoveUnusedPlaceholders rest := by
  unfold documentTemplateRemoveUnusedPlaceholders
  simp only [List.length_cons, removeUPF, matchPlaceholder_ph name rest hne hall]
  apply removeUPF_fuel
  · simp only [List.length_append, List.length_cons]
    omega
  · exact le_refl _

theorem removeUP_shaped_no_brace : ∀ (s : Chars), PlaceholderShaped s →
    '{' ∉ documentTemplateRemoveUnusedPlaceholders s
    ∧ '}' ∉ documentTemplateRemoveUnusedPlaceholders s := by
  intro s h
  induction h with
  | nil => simp [documentTemplateRemoveUnusedPlaceholders, removeUPF]
  | char c rest hc1 hc2 hrest ih =>
    rw [removeUP_char_step c rest hc1]
    constructor
    · intro hmem
      rcases List.mem_cons.mp hmem with h1 | h2
      · exact hc1 h1.symm
      · exact ih.1 h2
    · intro hmem
      rcases List.mem_cons.mp hmem with h1 | h2
      · exact hc2 h1.symm
      · exact ih.2 h2
  | ph name rest hne hall hrest ih =>
    rw [removeUP_ph_step name rest hne hall]
    exact ih

theorem goHasPre_mem : ∀ (sub s : Chars), goHasPre sub s = true → ∀ c ∈ sub, c ∈ s := by
  intro sub
  induction sub with
  | nil => intro s _ c hc; cases hc
  | cons p ps ih =>
    intro s h c hc
    cases s with
    | nil => simp [goHasPre] at h
    | cons x xs =>
      simp only [goHasPre] at h
      by_cases hpx : p = x
      · rw [if_pos hpx] at h
        rcases List.mem_cons.mp hc with h1 | h2
        · subst h1; rw [hpx]; exact List.mem_cons_self _ _
        · exact List.mem_cons_of_mem _ (ih xs h c h2)
      · rw [if_neg hpx] at h
        simp at h

theorem goContains_mem : ∀ (s sub : Chars), goContains sub s = true → ∀ c ∈ sub, c ∈ s := by
  intro s
  induction s with
  | nil =>
    intro sub h c hc
    cases sub with
    | nil => cases hc
    | cons p ps => simp [goContains, goHasPre] at h
  | cons x xs ih =>
    intro sub h c hc
    simp only [goContains, Bool.or_eq_true] at h
    rcases h with h1 | h2
    · exact goHasPre_mem sub (x :: xs) h1 c hc
    · exact List.mem_cons_of_mem _ (ih sub h2 c hc)

/-- C2: corrected.  The two claimed properties hold on inputs whose braces
occur only as complete well-formed placeholders: there the one stripping
pass after substitution leaves no opening brace at all, hence no
double-braced substring of any kind, and stripping is idempotent.  On
arbitrary strings both claimed properties fail (see the counterexample). -/
theorem documentTemplateRemoveUnusedPlaceholders_on_shaped :
    ∀ (html : Chars) (data : Fields) (s : Chars),
      (PlaceholderShaped (documentTemplateReplaceVariables html data) →
        ∀ mid, goContains (phOf mid)
          (documentTemplateRemoveUnusedPlaceholders
            (documentTemplateReplaceVariables html data)) = false)
      ∧ (PlaceholderShaped s →
        documentTemplateRemoveUnusedPlaceholders
            (documentTemplateRemoveUnusedPlaceholders s)
          = documentTemplateRemoveUnusedPlaceholders s) := by
  intro html data s
  constructor
  · intro hshaped mid
    have hnb := (removeUP_shaped_no_brace _ hshaped).1
    by_contra hcon
    have : goContains (phOf mid)
        (documentTemplateRemoveUnusedPlaceholders
          (documentTemplateReplaceVariables html data)) = true := by
      cases h2 : goContains (phOf mid)
          (documentTemplateRemoveUnusedPlaceholders
            (documentTemplateReplaceVariables html data))
      · exact absurd h2 hcon
      · rfl
    exact hnb (goContains_mem _ _ this '{' (by simp [phOf]))
  · intro hshaped
    have hnb := (removeUP_shaped_no_brace _ hshaped).1
    unfold documentTemplateRemoveUnusedPlaceholders
    exact removeUPF_no_brace _ _ hnb

/-- C2 witness: a single well-formed placeholder is stripped to the empty
string, which contains no placeholder and strips to itself. -/
theorem documentTemplateRemoveUnusedPlaceholders_on_shaped_witness :
    goContains (phOf ("zz").data)
      (documentTemplateRemoveUnusedPlaceholders
        (documentTemplateReplaceVariables (phOf ("ab").data) [])) = false
    ∧ documentTemplateRemoveUnusedPlaceholders
        (documentTemplateRemoveUnusedPlaceholders (phOf ("ab").data))
      = documentTemplateRemoveUnusedPlaceholders (phOf ("ab").data) :=
  ⟨(documentTemplateRemoveUnusedPlaceholders_on_shaped (phOf ("ab").data) []
      (phOf ("ab").data)).1
    (PlaceholderShaped.ph ("ab").data [] (by decide) (by decide) PlaceholderShaped.nil)
    ("zz").data,
  (documentTemplateRemoveUnusedPlaceholders_on_shaped (phOf ("ab").data) []
      (phOf ("ab").data)).2
    (PlaceholderShaped.ph ("ab").data [] (by decide) (by decide) PlaceholderShaped.nil)⟩

/-- C2 counterexample to the claim as stated: a placeholder whose name holds
a space survives stripping after substitution against the empty payload, so
the result still contains a double-braced substring; and on a string with a
placeholder nested inside braces one stripping pass produces a new match, so
stripping twice differs from stripping once. -/
theorem documentTemplateRemoveUnusedPlaceholders_not_idempotent :
    documentTemplateRemoveUnusedPlaceholders
        (documentTemplateReplaceVariables (phOf ("a b").data) [])
      = phOf ("a b").data
    ∧ goContains (phOf ("a b").data)
        (documentTemplateRemoveUnusedPlaceholders
          (documentTemplateReplaceVariables (phOf ("a b").data) [])) = true
    ∧ documentTemplateRemoveUnusedPlaceholders
        (documentTemplateRemoveUnusedPlaceholders
          ("\x7b\x7ba\x7b\x7bb\x7d\x7dc\x7d\x7d").data)
      ≠ documentTemplateRemoveUnusedPlaceholders ("\x7b\x7ba\x7b\x7bb\x7d\x7dc\x7d\x7d").data := by
  exact ⟨by decide, by decide, by decide⟩

theorem govString_eq_convert_of_not_nullnum : ∀ v : Value, isNullOrNumber v = false →
    govString v = documentTemplateConvertToString v := by
  intro v hv
  cases v <;> first | rfl | simp [isNullOrNumber] at hv

/-- C5: corrected.  documentTemplateReplaceVariables substitutes the default
%v formatting of each value, not formatValue: the two agree exactly when no
substituted value is nil or a number, and differ otherwise (see the
counterexample: nil prints as a literal nil marker under %v but as the empty
string under formatValue, and floats lose the two-decimal padding). -/
theorem documentTemplateReplaceVariables_eq_substitute_on_plain :
    ∀ (data : Fields) (html : Chars), (∀ kv ∈ data, isNullOrNumber kv.2 = false) →
      documentTemplateReplaceVariables html data = substituteSpecFormatValue html data := by
  intro data
  induction data with
  | nil => intro html _; rfl
  | cons kv rest ih =>
    intro html hall
    rw [show documentTemplateReplaceVariables html (kv :: rest)
        = documentTemplateReplaceVariables (goReplaceAll html (phOf kv.1) (govString kv.2)) rest
      from rfl]
    rw [show substituteSpecFormatValue html (kv :: rest)
        = substituteSpecFormatValue
            (goReplaceAll html (phOf kv.1) (documentTemplateConvertToString kv.2)) rest
      from rfl]
    rw [govString_eq_convert_of_not_nullnum kv.2 (hall kv (List.mem_cons_self _ _))]
    exact ih _ (fun kv2 h => hall kv2 (List.mem_cons_of_mem _ h))

/-- C5 witness: the agreement theorem applied to a payload of one string
binding. -/
theorem documentTemplateReplaceVariables_eq_substitute_on_plain_witness :
    (∀ kv ∈ ([(("x").data, Value.vStr ("v").data)] : Fields), isNullOrNumber kv.2 = false)
    ∧ documentTemplateReplaceVariables (phOf ("x").data) [(("x").data, Value.vStr ("v").data)]
      = substituteSpecFormatValue (phOf ("x").data) [(("x").data, Value.vStr ("v").data)] :=
  ⟨by decide,
    documentTemplateReplaceVariables_eq_substitute_on_plain
      [(("x").data, Value.vStr ("v").data)] (phOf ("x").data) (by decide)⟩

/-- C5 counterexample to the claim as stated: substituting a nil binding
yields the %v nil marker where formatValue yields the empty string, and
substituting the number three halves yields its unpadded %v form rather than
the two-decimal formatValue form. -/
theorem documentTemplateReplaceVariables_differs_from_formatValue :
    documentTemplateReplaceVariables (phOf ("x").data) [(("x").data, Value.vNull)]
      = ("<nil>").data
    ∧ substituteSpecFormatValue (phOf ("x").data) [(("x").data, Value.vNull)] = []
    ∧ documentTemplateReplaceVariables (phOf ("x").data) [(("x").data, Value.vNum (Rat.mk' 3 2))]
      = ("1.5").data
    ∧ documentTemplateConvertToString (Value.vNum (Rat.mk' 3 2)) = ("1.50").data
    ∧ ¬ documentTemplateReplaceVariables (phOf ("x").data) [(("x").data, Value.vNull)]
        = substituteSpecFormatValue (phOf ("x").data) [(("x").data, Value.vNull)] := by
  exact ⟨by decide, by decide, by decide, by decide, by decide⟩

theorem mem_insertKey : ∀ (l : List Chars) (k x : Chars), x ∈ insertKey k l → x = k ∨ x ∈ l := by
  intro l k x
  induction l with
  | nil => intro h; simpa [insertKey] using h
  | cons y ys ih =>
    simp only [insertKey]
    by_cases h : keyLess y k = true
    · rw [if_pos h]
      intro hm
      rcases List.mem_cons.mp hm with h1 | h2
      · right; exact h1 ▸ List.mem_cons_self _ _
      · rcases ih h2 with h3 | h4
        · left; exact h3
        · right; exact List.mem_cons_of_mem _ h4
    · rw [if_neg h]
      intro hm
      rcases List.mem_cons.mp hm with h1 | h2
      · left; exact h1
      · right; exact h2

theorem insertKey_mem_self (k : Chars) : ∀ (l : List Chars), k ∈ insertKey k l := by
  intro l
  induction l with
  | nil => simp [insertKey]
  | cons y ys ih =>
    simp only [insertKey]
    by_cases h : keyLess y k = true
    · rw [if_pos h]; exact List.mem_cons_of_mem _ ih
    · rw [if_neg h]; exact List.mem_cons_self _ _

theorem insertKey_mem_of_mem (k x : Chars) : ∀ (l : List Chars), x ∈ l → x ∈ insertKey k l := by
  intro l
  induction l with
  | nil => intro h; cases h
  | cons y ys ih =>
    intro hm
    simp only [insertKey]
    by_cases h : keyLess y k = true
    · rw [if_pos h]
      rcases List.mem_cons.mp hm with h1 | h2
      · exact h1 ▸ List.mem_cons_self _ _
      · exact List.mem_cons_of_mem _ (ih h2)
    · rw [if_neg h]
      exact List.mem_cons_of_mem _ hm

theorem mem_sortKeys (m : EMap) (k : Chars) (hk : k ∈ m.map Prod.fst) :
    k ∈ documentTemplateSortKeysByDepth m := by
  unfold documentTemplateSortKeysByDepth
  revert hk
  generalize m.map Prod.fst = l
  induction l with
  | nil => intro h; cases h
  | cons y ys ih =>
    intro hm
    simp only [List.foldr_cons]
    rcases List.mem_cons.mp hm with h1 | h2
    · exact h1 ▸ insertKey_mem_self _ _
    · exact insertKey_mem_of_mem _ _ _ (ih h2)

theorem validateEmbKeys_none : ∀ (keys : List Chars) (m : EMap),
    documentTemplateValidateEmbKeys m keys = none → ∀ k ∈ keys, goContains ['.'] k = true →
      ∃ ph, lookupA m (parentKeyOf k) = some ph ∧ goContains (phOf k) ph = true := by
  intro keys
  induction keys with
  | nil => intro m _ k hk; cases hk
  | cons key rest ih =>
    intro m h k hk hdot
    simp only [documentTemplateValidateEmbKeys] at h
    cases hfiv : documentTemplateFindInvalidVar key
        (documentTemplateExtractVariables ((lookupA m key).getD [])) with
    | some v => simp only [hfiv] at h; exact Option.noConfusion h
    | none =>
      simp only [hfiv] at h
      rcases List.mem_cons.mp hk with hkey | hmem
      · subst hkey
        rw [if_pos hdot] at h
        cases hl : lookupA m (parentKeyOf k) with
        | none => simp only [hl] at h; exact Option.noConfusion h
        | some parentHtml =>
          simp only [hl] at h
          by_cases hc : goContains (phOf k) parentHtml = true
          · exact ⟨parentHtml, rfl, hc⟩
          · rw [if_neg hc] at h
            simp at h
      · by_cases hd : goContains ['.'] key = true
        · rw [if_pos hd] at h
          cases hl : lookupA m (parentKeyOf key) with
          | none => simp only [hl] at h; exact Option.noConfusion h
          | some parentHtml =>
            simp only [hl] at h
            by_cases hc : goContains (phOf key) parentHtml = true
            · rw [if_pos hc] at h
              exact ih m h k hmem hdot
            · rw [if_neg hc] at h
              simp at h
        · rw [if_neg hd] at h
          exact ih m h k hmem hdot

theorem validateEmbKeys_code : ∀ (keys : List Chars) (m : EMap) (e : AppError),
    documentTemplateValidateEmbKeys m keys = some e → e.code = ErrorCode.validation := by
  intro keys
  induction keys with
  | nil => intro m e h; simp [documentTemplateValidateEmbKeys] at h
  | cons key rest ih =>
    intro m e h
    simp only [documentTemplateValidateEmbKeys] at h
    cases hfiv : documentTemplateFindInvalidVar key
        (documentTemplateExtractVariables ((lookupA m key).getD [])) with
    | some v =>
      simp only [hfiv] at h
      cases h
      rfl
    | none =>
      simp only [hfiv] at h
      by_cases hd : goContains ['.'] key = true
      · rw [if_pos hd] at h
        cases hl : lookupA m (parentKeyOf key) with
        | none =>
          simp only [hl] at h
          cases h
          rfl
        | some parentHtml =>
          simp only [hl] at h
          by_cases hc : goContains (phOf key) parentHtml = true
          · rw [if_pos hc] at h
            exact ih m e h
          · rw [if_neg hc] at h
            cases h
            rfl
      · rw [if_neg hd] at h
        exact ih m e h

/-- C9: confirmed.  Whenever some key of the embeddedHtml map has positive
depth and either its parent key is absent from the map or the parent html
does not contain the child placeholder, documentTemplateValidateEmbeddedHtml
returns a VALIDATION error (possibly an earlier one in processing order);
DocumentTemplateCreate and DocumentTemplateUpdate run this validation before
any persistence write, so no such template is stored. -/
theorem documentTemplateValidateEmbeddedHtml_rejects :
    ∀ (m : EMap) (k : Chars), k ∈ m.map Prod.fst → goContains ['.'] k = true →
      (match lookupA m (parentKeyOf k) with
        | none => True
        | some ph => goContains (phOf k) ph = false) →
      ∃ e, documentTemplateValidateEmbeddedHtml m = some e ∧ e.code = ErrorCode.validation := by
  intro m k hk hdot hpar
  unfold documentTemplateValidateEmbeddedHtml
  have hne : m.isEmpty = false := by
    cases m with
    | nil => simp at hk
    | cons kv rest => rfl
  rw [if_neg (by simp [hne])]
  cases hv : documentTemplateValidateEmbKeys m (documentTemplateSortKeysByDepth m) with
  | none =>
    exfalso
    obtain ⟨ph, hl, hc⟩ := validateEmbKeys_none _ m hv k (mem_sortKeys m k hk) hdot
    rw [hl] at hpar
    rw [hpar] at hc
    cases hc
  | some e => exact ⟨e, rfl, validateEmbKeys_code _ m e hv⟩

/-- C9 witness: a one-entry map whose only key is nested and has no parent is
rejected with a VALIDATION error. -/
theorem documentTemplateValidateEmbeddedHtml_rejects_witness :
    (("a.b").data ∈ ([(("a.b").data, ("x").data)] : EMap).map Prod.fst)
    ∧ goContains ['.'] ("a.b").data = true
    ∧ ∃ e, documentTemplateValidateEmbeddedHtml [(("a.b").data, ("x").data)] = some e
        ∧ e.code = ErrorCode.validation :=
  ⟨by decide, by decide,
    documentTemplateValidateEmbeddedHtml_rejects [(("a.b").data, ("x").data)] ("a.b").data
      (by decide) (by decide) trivial⟩

theorem phase1Step_caller (e : EMap) (st : RenderState × List Chars) (key : Chars) :
    (documentTemplatePhase1Step e st key).1.caller = st.1.caller := by
  simp only [documentTemplatePhase1Step]
  split <;> rfl

theorem phase2Step_caller (vh : EMap) (st : RenderState) (varName : Chars) :
    (documentTemplatePhase2Step vh st varName).caller = st.caller := by
  simp only [documentTemplatePhase2Step]
  split
  · rfl
  · rfl
  · split <;> rfl

theorem phase1_fold_caller (e : EMap) : ∀ (keys : List Chars) (st : RenderState × List Chars),
    ((keys.foldl (documentTemplatePhase1Step e) st).1).caller = st.1.caller := by
  intro keys
  induction keys with
  | nil => intro st; rfl
  | cons k ks ih =>
    intro st
    simp only [List.foldl_cons]
    rw [ih (documentTemplatePhase1Step e st k)]
    exact phase1Step_caller e st k

theorem phase2_fold_caller (vh : EMap) : ∀ (names : List Chars) (st : RenderState),
    (names.foldl (documentTemplatePhase2Step vh) st).caller = st.caller := by
  intro names
  induction names with
  | nil => intro st; rfl
  | cons n ns ih =>
    intro st
    simp only [List.foldl_cons]
    rw [ih (documentTemplatePhase2Step vh st n)]
    exact phase2Step_caller vh st n

/-- C10: confirmed.  The render pipeline clones the caller payload into the
working copy up front, and phases 1 and 2 write only to the working copy, so
after documentTemplateProcessHTMLSt completes the caller component of the
render state is exactly the map the caller passed in. -/
theorem documentTemplateProcessHTMLSt_preserves_caller :
    ∀ (t : DocumentTemplate) (st0 : RenderState) (forPreview : Bool),
      (documentTemplateProcessHTMLSt t st0 forPreview).2.caller = st0.caller := by
  intro t st0 p
  simp only [documentTemplateProcessHTMLSt]
  by_cases h1 : t.embeddedHtml.isEmpty = true
  · by_cases h2 : t.variableHtml.isEmpty = true
    · simp [h1, h2]
    · simp [h1, h2, phase2_fold_caller]
  · by_cases h2 : t.variableHtml.isEmpty = true
    · simp [h1, h2, phase1_fold_caller]
    · simp [h1, h2, phase2_fold_caller, phase1_fold_caller]

theorem quotationFirstMissing_sound : ∀ (vl : List Chars) (vars : Fields) (v2 : Chars),
    quotationTemplateFirstMissingVariable vl vars = some v2 →
      v2 ∈ vl ∧ lookupA vars v2 = none := by
  intro vl
  induction vl with
  | nil => intro vars v2 h; simp [quotationTemplateFirstMissingVariable] at h
  | cons v vs ih =>
    intro vars v2 h
    simp only [quotationTemplateFirstMissingVariable] at h
    cases hl : lookupA vars v with
    | some x =>
      simp only [hl] at h
      have := ih vars v2 h
      exact ⟨List.mem_cons_of_mem _ this.1, this.2⟩
    | none =>
      simp only [hl] at h
      cases h
      exact ⟨List.mem_cons_self _ _, hl⟩

theorem quotationFirstMissing_complete : ∀ (vl : List Chars) (vars : Fields) (v : Chars),
    v ∈ vl → lookupA vars v = none →
      ¬ quotationTemplateFirstMissingVariable vl vars = none := by
  intro vl
  induction vl with
  | nil => intro vars v hv _ _; cases hv
  | cons w ws ih =>
    intro vars v hv hnone h
    simp only [quotationTemplateFirstMissingVariable] at h
    cases hl : lookupA vars w with
    | some x =>
      simp only [hl] at h
      rcases List.mem_cons.mp hv with h1 | h2
      · subst h1; rw [hnone] at hl; cases hl
      · exact ih vars v h2 hnone h
    | none => simp only [hl] at h; exact Option.noConfusion h

/-- C1: corrected.  Only the alternate non-recursive quotation renderer
performs a required-variable check: when some declared variable is unbound it
aborts before any section generation with a VALIDATION error naming the first
missing declared variable, and no html is produced.  The main recursive
document renderer declares no required variables and never fails: every run
of documentTemplateProcessHTML returns an ok result. -/
theorem requiredVariableCheck_only_in_quotation_variant :
    (∀ (t : DocumentTemplate) (data : Fields) (p : Bool),
      (documentTemplateProcessHTML t data p).isOk = true)
    ∧ (∀ (qt : QuotationTemplate) (vars : Fields)
        (areas : List QuotationTemplatePreviewArea) (tcs : List Chars) (v : Chars),
        quotationTemplateFirstMissingVariable qt.variableList vars = some v →
          v ∈ qt.variableList ∧ lookupA vars v = none
          ∧ QuotationTemplatePreview qt vars areas tcs
            = .error ⟨.validation, quotationTemplateVarRequiredMsg v⟩)
    ∧ (∀ (vl : List Chars) (vars : Fields) (v : Chars), v ∈ vl → lookupA vars v = none →
        ¬ quotationTemplateFirstMissingVariable vl vars = none) := by
  refine ⟨fun t data p => rfl, fun qt vars areas tcs v hfm => ?_,
    quotationFirstMissing_complete⟩
  have hs := quotationFirstMissing_sound qt.variableList vars v hfm
  refine ⟨hs.1, hs.2, ?_⟩
  simp only [QuotationTemplatePreview, hfm]

/-- C1 witness: a quotation template declaring one variable, previewed with
an empty variable map, aborts with the VALIDATION error naming it, while the
main renderer stays ok on an arbitrary template. -/
theorem requiredVariableCheck_only_in_quotation_variant_witness :
    quotationTemplateFirstMissingVariable [("name").data] [] = some ("name").data
    ∧ QuotationTemplatePreview
        ⟨phOf ("name").data, [], [], [("name").data], ("f").data⟩ [] [] []
      = .error ⟨.validation, quotationTemplateVarRequiredMsg ("name").data⟩
    ∧ (documentTemplateProcessHTML
        ⟨("t").data, [], ("<p>").data ++ phOf ("name").data ++ ("</p>").data, [], [],
          ("f").data⟩ [] false).isOk = true :=
  ⟨rfl,
    (requiredVariableCheck_only_in_quotation_variant.2.1
      ⟨phOf ("name").data, [], [], [("name").data], ("f").data⟩ [] [] [] ("name").data rfl).2.2,
    requiredVariableCheck_only_in_quotation_variant.1
      ⟨("t").data, [], ("<p>").data ++ phOf ("name").data ++ ("</p>").data, [], [], ("f").data⟩
      [] false⟩

/-- C1 counterexample to the claim as stated: a document template whose main
html references a variable absent from the payload still renders to an ok
result (the placeholder is stripped), with no VALIDATION error: the main
recursive renderer has no required-variable check at all. -/
theorem documentTemplateProcessHTML_missing_variable_still_ok :
    documentTemplateProcessHTML
      ⟨("t").data, [], ("<p>").data ++ phOf ("name").data ++ ("</p>").data, [], [], ("f").data⟩
      [] false
      = .ok (("<p></p>").data) := rfl

theorem natDecF_fuel : ∀ (f1 n f2 : Nat), n < f1 → n < f2 → natDecF f1 n = natDecF f2 n := by
  intro f1
  induction f1 with
  | zero => intro n f2 h1 _; omega
  | succ g ih =>
    intro n f2 h1 h2
    cases f2 with
    | zero => omega
    | succ g2 =>
      simp only [natDecF]
      by_cases h : n < 10
      · rw [if_pos h, if_pos h]
      · rw [if_neg h, if_neg h]
        have hd : n / 10 < n := Nat.div_lt_self (by omega) (by omega)
        rw [ih (n / 10) g2 (by omega) (by omega)]

theorem natDec_lt10 {n : Nat} (h : n < 10) : natDec n = [decDigit n] := by
  simp only [natDec, natDecF, if_pos h]

theorem natDec_step {n : Nat} (h : 10 ≤ n) :
    natDec n = natDec (n / 10) ++ [decDigit (n % 10)] := by
  have hd : n / 10 < n := Nat.div_lt_self (by omega) (by omega)
  have h1 : natDec n = natDecF n (n / 10) ++ [decDigit (n % 10)] := by
    rw [show natDec n
        = if n < 10 then [decDigit n] else natDecF n (n / 10) ++ [decDigit (n % 10)]
      from rfl]
    rw [if_neg (by omega : ¬ n < 10)]
  rw [h1, natDecF_fuel n (n / 10) (n / 10 + 1) (by omega) (by omega)]
  rfl

theorem natDec_length_le : ∀ (d n : Nat), 1 ≤ d → n < 10 ^ d → (natDec n).length ≤ d := by
  intro d
  induction d with
  | zero => intro n h _; omega
  | succ d ih =>
    intro n _ hn
    by_cases h : n < 10
    · rw [natDec_lt10 h]; simp
    · cases Nat.eq_zero_or_pos d with
      | inl hz => subst hz; simp at hn; omega
      | inr hpos =>
        rw [natDec_step (by omega)]
        have hdiv : n / 10 < 10 ^ d := by
          rw [Nat.div_lt_iff_lt_mul (by omega : 0 < 10)]
          calc n < 10 ^ (d + 1) := hn
          _ = 10 ^ d * 10 := by rw [pow_succ]
        have := ih (n / 10) hpos hdiv
        simp only [List.length_append, List.length_cons, List.length_nil]
        omega

theorem natDec_length_pos (n : Nat) : 1 ≤ (natDec n).length := by
  by_cases h : n < 10
  · rw [natDec_lt10 h]; simp
  · rw [natDec_step (by omega)]; simp

theorem decDigit_ne_dot {d : Nat} (hlt : d < 10) : ¬ decDigit d = '.' := by
  interval_cases d <;> decide

theorem decDigit_ne_zero {d : Nat} (hlt : d < 10) (hne : ¬ d = 0) :
    ¬ decDigit d = '0' := by
  interval_cases d
  · exact absurd rfl hne
  all_goals decide

theorem dot_not_mem_natDecF : ∀ (f n : Nat), '.' ∉ natDecF f n := by
  intro f
  induction f with
  | zero => intro n h; cases h
  | succ g ih =>
    intro n h
    simp only [natDecF] at h
    by_cases hlt : n < 10
    · rw [if_pos hlt] at h
      exact decDigit_ne_dot hlt (List.mem_singleton.mp h).symm
    · rw [if_neg hlt] at h
      rcases List.mem_append.mp h with h1 | h2
      · exact ih (n / 10) h1
      · exact decDigit_ne_dot (Nat.mod_lt n (by omega)) (List.mem_singleton.mp h2).symm

theorem dot_not_mem_natDec (n : Nat) : '.' ∉ natDec n :=
  dot_not_mem_natDecF (n + 1) n

theorem natDec_mul_pow10 : ∀ (z w : Nat), 1 ≤ w →
    natDec (w * 10 ^ z) = natDec w ++ List.replicate z '0' := by
  intro z
  induction z with
  | zero => intro w _; simp
  | succ z ih =>
    intro w hw
    have hrw : w * 10 ^ (z + 1) = w * 10 ^ z * 10 := by ring
    have hge : 10 ≤ w * 10 ^ z * 10 := by
      have : 1 ≤ w * 10 ^ z := Nat.one_le_iff_ne_zero.mpr (by positivity)
      omega
    rw [hrw, natDec_step hge, Nat.mul_div_cancel _ (by omega), Nat.mul_mod_left]
    rw [ih w hw, show decDigit 0 = '0' from rfl, List.replicate_succ' z '0']
    simp [List.append_assoc]

theorem natDec_reverse_head (w : Nat) :
    ∃ r, (natDec w).reverse = decDigit (w % 10) :: r := by
  by_cases h : w < 10
  · refine ⟨[], ?_⟩
    rw [natDec_lt10 h, Nat.mod_eq_of_lt h]
    rfl
  · refine ⟨(natDec (w / 10)).reverse, ?_⟩
    rw [natDec_step (by omega)]
    simp

theorem splitDot_no_dot : ∀ (b : Chars), '.' ∉ b → splitDot b = [b] := by
  intro b
  induction b with
  | nil => intro _; rfl
  | cons c rest ih =>
    intro h
    have hc : ¬ c = '.' := fun hc => h (hc ▸ List.mem_cons_self _ _)
    simp only [splitDot, if_neg hc]
    rw [ih (fun hm => h (List.mem_cons_of_mem _ hm))]

theorem splitDot_append : ∀ (a b : Chars), '.' ∉ a →
    splitDot (a ++ '.' :: b) = a :: splitDot b := by
  intro a
  induction a with
  | nil =>
    intro b _
    simp only [List.nil_append, splitDot, if_true]
  | cons c arest ih =>
    intro b h
    have hc : ¬ c = '.' := fun hc => h (hc ▸ List.mem_cons_self _ _)
    simp only [List.cons_append, splitDot, if_neg hc, List.append_eq]
    rw [ih b (fun hm => h (List.mem_cons_of_mem _ hm))]

theorem dropWhile_replicate_prefix : ∀ (z : Nat) (l : Chars),
    List.dropWhile (fun c => c = '0') (List.replicate z '0' ++ l)
      = List.dropWhile (fun c => c = '0') l := by
  intro z
  induction z with
  | zero => intro l; simp
  | succ z ih =>
    intro l
    rw [List.replicate_succ]
    simp only [List.cons_append, List.dropWhile_cons]
    rw [if_pos (by decide)]
    exact ih l

theorem trailing_decomp : ∀ (fuel v : Nat), v ≤ fuel →
    v = 0 ∨ ∃ w z, v = w * 10 ^ z ∧ w % 10 ≠ 0 := by
  intro fuel
  induction fuel with
  | zero => intro v h; left; omega
  | succ g ih =>
    intro v h
    by_cases hz : v = 0
    · left; exact hz
    · right
      by_cases hm : v % 10 = 0
      · have hv10 : 10 ≤ v := by omega
        have hdiv : v / 10 ≤ g := by omega
        rcases ih (v / 10) hdiv with h0 | ⟨w, z, hw, hwm⟩
        · exfalso
          have := Nat.div_add_mod v 10
          omega
        · refine ⟨w, z + 1, ?_, hwm⟩
          have := Nat.div_add_mod v 10
          have : v = v / 10 * 10 := by omega
          rw [this, hw]
          ring
      · exact ⟨v, 0, by simp, hm⟩

theorem roundHalfUpNat_pow (x den e m : Nat) (hden : 0 < den)
    (hm : roundHalfUpNat (x * 10 ^ e) den = m * 10 ^ e) :
    roundHalfUpNat x den = m := by
  have hP : 1 ≤ 10 ^ e := Nat.one_le_pow _ _ (by omega)
  have h0 : 0 < 2 * den := by omega
  have hA := Nat.div_add_mod (2 * (x * 10 ^ e) + den) (2 * den)
  have hB := Nat.mod_lt (2 * (x * 10 ^ e) + den) h0
  rw [show roundHalfUpNat (x * 10 ^ e) den = (2 * (x * 10 ^ e) + den) / (2 * den) from rfl] at hm
  rw [hm] at hA
  have A1 : 2 * den * (m * 10 ^ e) ≤ 2 * (x * 10 ^ e) + den := by
    linarith [Nat.zero_le ((2 * (x * 10 ^ e) + den) % (2 * den))]
  have A2 : 2 * (x * 10 ^ e) + den < 2 * den * (m * 10 ^ e) + 2 * den := by
    linarith
  have B1 : 2 * den * m ≤ 2 * x + den := by
    by_contra hc
    push_neg at hc
    have step1 : (2 * x + den + 1) * 10 ^ e ≤ 2 * den * m * 10 ^ e :=
      Nat.mul_le_mul_right _ (by omega)
    have e1 : (2 * x + den + 1) * 10 ^ e = 2 * (x * 10 ^ e) + den * 10 ^ e + 10 ^ e := by ring
    have e2 : 2 * den * m * 10 ^ e = 2 * den * (m * 10 ^ e) := by ring
    have hdle : den ≤ den * 10 ^ e := Nat.le_mul_of_pos_right den (by omega)
    rw [e1, e2] at step1
    linarith
  have B2 : 2 * x + den < 2 * den * m + 2 * den := by
    by_contra hc
    push_neg at hc
    have step2 : (2 * den * m + 2 * den) * 10 ^ e ≤ (2 * x + den) * 10 ^ e :=
      Nat.mul_le_mul_right _ hc
    have e3 : (2 * den * m + 2 * den) * 10 ^ e
        = 2 * den * (m * 10 ^ e) + 2 * (den * 10 ^ e) := by ring
    have e4 : (2 * x + den) * 10 ^ e = 2 * (x * 10 ^ e) + den * 10 ^ e := by ring
    have hdle : den ≤ den * 10 ^ e := Nat.le_mul_of_pos_right den (by omega)
    rw [e3, e4] at step2
    linarith
  have hle : m ≤ (2 * x + den) / (2 * den) := by
    refine (Nat.le_div_iff_mul_le h0).2 ?_
    calc m * (2 * den) = 2 * den * m := by ring
    _ ≤ 2 * x + den := B1
  have hlt : (2 * x + den) / (2 * den) < m + 1 := by
    refine (Nat.div_lt_iff_lt_mul h0).2 ?_
    calc 2 * x + den < 2 * den * m + 2 * den := B2
    _ = (m + 1) * (2 * den) := by ring
  rw [show roundHalfUpNat x den = (2 * x + den) / (2 * den) from rfl]
  exact le_antisymm (Nat.lt_succ_iff.mp hlt) hle

theorem dot_not_mem_padZeros (d : Nat) (n : Nat) : '.' ∉ padZeros d (natDec n) := by
  intro h
  rcases List.mem_append.mp h with h1 | h2
  · have := List.eq_of_mem_replicate h1
    cases this
  · exact dot_not_mem_natDec n h2

theorem dot_not_mem_sign_natDec (q : ℚ) (n : Nat) :
    '.' ∉ (if q.num < 0 then ['-'] else []) ++ natDec n := by
  intro h
  rcases List.mem_append.mp h with h1 | h2
  · by_cases hq : q.num < 0
    · rw [if_pos hq] at h1
      cases List.mem_singleton.mp h1
    · rw [if_neg hq] at h1
      cases h1
  · exact dot_not_mem_natDec n h2

theorem fixedDecimal_pos (q : ℚ) (d : Nat) (hd : ¬ d = 0) :
    fixedDecimal q d
      = (if q.num < 0 then ['-'] else [])
        ++ (natDec (roundHalfUpNat (q.num.natAbs * 10 ^ d) q.den / 10 ^ d)
          ++ '.' :: padZeros d (natDec (roundHalfUpNat (q.num.natAbs * 10 ^ d) q.den % 10 ^ d))) := by
  simp only [fixedDecimal, if_neg hd]
  rw [List.append_assoc]

theorem splitDot_fixedDecimal (q : ℚ) (d : Nat) (hd : ¬ d = 0) :
    splitDot (fixedDecimal q d)
      = [(if q.num < 0 then ['-'] else [])
          ++ natDec (roundHalfUpNat (q.num.natAbs * 10 ^ d) q.den / 10 ^ d),
         padZeros d (natDec (roundHalfUpNat (q.num.natAbs * 10 ^ d) q.den % 10 ^ d))] := by
  rw [fixedDecimal_pos q d hd, ← List.append_assoc]
  rw [splitDot_append _ _ (dot_not_mem_sign_natDec q _)]
  rw [splitDot_no_dot _ (dot_not_mem_padZeros d _)]

theorem formatFloat_eq_trimTo2 (q : ℚ) :
    documentTemplateFormatFloat q = trimTo2 (fixedDecimal q 10) := by
  have hden : 0 < q.den := q.den_pos
  obtain ⟨n10, hn10⟩ : ∃ n, roundHalfUpNat (q.num.natAbs * 10 ^ 10) q.den = n := ⟨_, rfl⟩
  obtain ⟨Q, hQ⟩ : ∃ a, n10 / 10 ^ 10 = a := ⟨_, rfl⟩
  obtain ⟨v, hv⟩ : ∃ a, n10 % 10 ^ 10 = a := ⟨_, rfl⟩
  have hsplit := splitDot_fixedDecimal q 10 (by omega)
  rw [hn10, hQ, hv] at hsplit
  have hv10 : v < 10 ^ 10 := by rw [← hv]; exact Nat.mod_lt _ (by norm_num)
  have hQv : 10 ^ 10 * Q + v = n10 := by rw [← hQ, ← hv]; exact Nat.div_add_mod n10 (10 ^ 10)
  have hL : documentTemplateFormatFloat q
      = fixedDecimal q
          (if (((padZeros 10 (natDec v)).reverse).dropWhile (fun c => c = '0')).length < 2 then 2
           else (((padZeros 10 (natDec v)).reverse).dropWhile (fun c => c = '0')).length) := by
    simp only [documentTemplateFormatFloat]
    rw [hsplit]
  have hR : trimTo2 (fixedDecimal q 10)
      = ((if q.num < 0 then ['-'] else []) ++ natDec Q)
        ++ '.' :: ((((padZeros 10 (natDec v)).reverse).dropWhile (fun c => c = '0')).reverse
             ++ List.replicate
                 (2 - (((padZeros 10 (natDec v)).reverse).dropWhile
                    (fun c => c = '0')).reverse.length) '0') := by
    simp only [trimTo2]
    rw [hsplit]
  obtain hv0 | ⟨w, z, hvw, hwm⟩ := trailing_decomp v v (Nat.le_refl v)
  · subst hv0
    have hdrop : ((padZeros 10 (natDec 0)).reverse).dropWhile (fun c => c = '0') = [] := by
      decide
    rw [hdrop] at hL hR
    rw [show (([] : Chars)).length = 0 from rfl, if_pos (show (0:Nat) < 2 from by omega)] at hL
    simp only [List.reverse_nil, List.nil_append, List.length_nil, Nat.sub_zero] at hR
    have hn2 : roundHalfUpNat (q.num.natAbs * 10 ^ 2) q.den = Q * 10 ^ 2 := by
      apply roundHalfUpNat_pow _ _ 8 _ hden
      have h1 : q.num.natAbs * 10 ^ 2 * 10 ^ 8 = q.num.natAbs * 10 ^ 10 := by
        rw [show (10:ℕ) ^ 10 = 10 ^ 2 * 10 ^ 8 from by norm_num]
        ring
      rw [h1, hn10]
      have h2 : Q * 10 ^ 2 * 10 ^ 8 = 10 ^ 10 * Q := by
        rw [show (10:ℕ) ^ 10 = 10 ^ 2 * 10 ^ 8 from by norm_num]
        ring
      rw [h2, ← hQv]
      exact Nat.add_zero _
    have hfd : fixedDecimal q 2
        = (if q.num < 0 then ['-'] else []) ++ (natDec Q ++ '.' :: padZeros 2 (natDec 0)) := by
      rw [fixedDecimal_pos q 2 (by omega), hn2,
        Nat.mul_div_cancel _ (by positivity), Nat.mul_mod_left]
    rw [hL, hR, hfd]
    rw [show padZeros 2 (natDec 0) = List.replicate 2 '0' from by decide, List.append_assoc]
  · have hw0 : ¬ w = 0 := by
      intro h
      rw [h] at hwm
      exact hwm (by norm_num)
    have hw1 : 1 ≤ w := by omega
    have hz9 : z ≤ 9 := by
      by_contra hz
      have h10 : (10:ℕ) ^ 10 ≤ 10 ^ z := Nat.pow_le_pow_right (by omega) (by omega)
      have hle : 10 ^ z ≤ w * 10 ^ z := Nat.le_mul_of_pos_left _ (by omega)
      rw [← hvw] at hle
      exact absurd hv10 (Nat.not_lt.mpr (le_trans h10 hle))
    have hnv : natDec v = natDec w ++ List.replicate z '0' := by
      rw [hvw]
      exact natDec_mul_pow10 z w hw1
    obtain ⟨lenw, hlenw⟩ : ∃ a, (natDec w).length = a := ⟨_, rfl⟩
    have hlenw1 : 1 ≤ lenw := hlenw ▸ natDec_length_pos w
    have hlenv : (natDec v).length = lenw + z := by
      rw [hnv]
      simp [hlenw]
    have hlenvle : (natDec v).length ≤ 10 := natDec_length_le 10 v (by omega) hv10
    have hlz10 : lenw + z ≤ 10 := by omega
    have hD : padZeros 10 (natDec v)
        = List.replicate (10 - (lenw + z)) '0' ++ (natDec w ++ List.replicate z '0') := by
      show List.replicate (10 - (natDec v).length) '0' ++ natDec v = _
      rw [hlenv, hnv]
    obtain ⟨r, hr⟩ := natDec_reverse_head w
    have hrlen : r.length = lenw - 1 := by
      have h1 : (natDec w).reverse.length = lenw := by rw [List.length_reverse, hlenw]
      rw [hr] at h1
      simp only [List.length_cons] at h1
      omega
    have hDrev : (padZeros 10 (natDec v)).reverse
        = List.replicate z '0' ++ ((natDec w).reverse ++ List.replicate (10 - (lenw + z)) '0') := by
      rw [hD]
      simp [List.reverse_append, List.reverse_replicate, List.append_assoc]
    have hdrop : ((padZeros 10 (natDec v)).reverse).dropWhile (fun c => c = '0')
        = decDigit (w % 10) :: (r ++ List.replicate (10 - (lenw + z)) '0') := by
      rw [hDrev, dropWhile_replicate_prefix, hr, List.cons_append, List.dropWhile_cons]
      have hne : ¬ decDigit (w % 10) = '0' := decDigit_ne_zero (Nat.mod_lt w (by omega)) hwm
      simp [hne]
    have hdlen : (((padZeros 10 (natDec v)).reverse).dropWhile (fun c => c = '0')).length
        = 10 - z := by
      rw [hdrop]
      simp only [List.length_cons, List.length_append, List.length_replicate, hrlen]
      omega
    have ht : (((padZeros 10 (natDec v)).reverse).dropWhile (fun c => c = '0')).reverse
        = List.replicate (10 - (lenw + z)) '0' ++ natDec w := by
      rw [hdrop]
      rw [show decDigit (w % 10) :: (r ++ List.replicate (10 - (lenw + z)) '0')
          = (decDigit (w % 10) :: r) ++ List.replicate (10 - (lenw + z)) '0' from rfl]
      rw [← hr, List.reverse_append, List.reverse_reverse, List.reverse_replicate]
    have htlen : (List.replicate (10 - (lenw + z)) '0' ++ natDec w).length = 10 - z := by
      simp only [List.length_append, List.length_replicate, hlenw]
      omega
    rw [hdlen] at hL
    rw [ht] at hR
    rw [htlen] at hR
    by_cases hz8 : z ≤ 8
    · rw [if_neg (show ¬ (10 - z < 2) from by omega)] at hL
      rw [show 2 - (10 - z) = 0 from by omega, List.replicate_zero, List.append_nil] at hR
      have hpow : (10:ℕ) ^ 10 = 10 ^ (10 - z) * 10 ^ z := by
        rw [← pow_add]
        congr 1
        omega
      have hwlt : w < 10 ^ (10 - z) := by
        by_contra hge
        push_neg at hge
        have h1 : 10 ^ (10 - z) * 10 ^ z ≤ w * 10 ^ z := Nat.mul_le_mul_right _ hge
        rw [← hpow, ← hvw] at h1
        exact absurd hv10 (Nat.not_lt.mpr h1)
      have hndc : roundHalfUpNat (q.num.natAbs * 10 ^ (10 - z)) q.den
          = Q * 10 ^ (10 - z) + w := by
        apply roundHalfUpNat_pow _ _ z _ hden
        have h1 : q.num.natAbs * 10 ^ (10 - z) * 10 ^ z = q.num.natAbs * 10 ^ 10 := by
          rw [hpow]
          ring
        rw [h1, hn10]
        have h2 : (Q * 10 ^ (10 - z) + w) * 10 ^ z = 10 ^ 10 * Q + w * 10 ^ z := by
          rw [hpow]
          ring
        rw [h2, ← hvw]
        exact hQv.symm
      have hdiv : (Q * 10 ^ (10 - z) + w) / 10 ^ (10 - z) = Q := by
        rw [Nat.add_comm (Q * 10 ^ (10 - z)) w,
          Nat.add_mul_div_right _ _ (show (0:ℕ) < 10 ^ (10 - z) from by positivity),
          Nat.div_eq_of_lt hwlt, Nat.zero_add]
      have hmod : (Q * 10 ^ (10 - z) + w) % 10 ^ (10 - z) = w := by
        rw [Nat.add_comm (Q * 10 ^ (10 - z)) w, Nat.add_mul_mod_self_right,
          Nat.mod_eq_of_lt hwlt]
      have hpz : padZeros (10 - z) (natDec w)
          = List.replicate (10 - (lenw + z)) '0' ++ natDec w := by
        show List.replicate (10 - z - (natDec w).length) '0' ++ natDec w = _
        rw [hlenw, show 10 - z - lenw = 10 - (lenw + z) from by omega]
      have hfd : fixedDecimal q (10 - z)
          = (if q.num < 0 then ['-'] else [])
            ++ (natDec Q ++ '.' :: padZeros (10 - z) (natDec w)) := by
        rw [fixedDecimal_pos q (10 - z) (by omega), hndc, hdiv, hmod]
      rw [hL, hR, hfd, hpz, List.append_assoc]
    · have hz : z = 9 := by omega
      subst hz
      have hlw : lenw = 1 := by omega
      have hw10 : w < 10 := by
        by_contra hge
        push_neg at hge
        have h1 := natDec_step hge
        have h2 : 2 ≤ (natDec w).length := by
          rw [h1]
          have h3 := natDec_length_pos (w / 10)
          simp only [List.length_append, List.length_cons, List.length_nil]
          omega
        omega
      rw [if_pos (show 10 - 9 < 2 from by omega)] at hL
      rw [show 10 - (lenw + 9) = 0 from by omega, List.replicate_zero, List.nil_append] at hR
      rw [show 2 - (10 - 9) = 1 from rfl, show List.replicate 1 '0' = ['0'] from rfl] at hR
      have hwlt : w * 10 < 10 ^ 2 := by
        rw [show (10:ℕ) ^ 2 = 100 from by norm_num]
        omega
      have hn2 : roundHalfUpNat (q.num.natAbs * 10 ^ 2) q.den = Q * 10 ^ 2 + w * 10 := by
        apply roundHalfUpNat_pow _ _ 8 _ hden
        have h1 : q.num.natAbs * 10 ^ 2 * 10 ^ 8 = q.num.natAbs * 10 ^ 10 := by
          rw [show (10:ℕ) ^ 10 = 10 ^ 2 * 10 ^ 8 from by norm_num]
          ring
        rw [h1, hn10]
        have h2 : (Q * 10 ^ 2 + w * 10) * 10 ^ 8 = 10 ^ 10 * Q + w * 10 ^ 9 := by
          rw [show (10:ℕ) ^ 10 = 10 ^ 2 * 10 ^ 8 from by norm_num,
            show (10:ℕ) ^ 9 = 10 * 10 ^ 8 from by norm_num]
          ring
        rw [h2, ← hvw]
        exact hQv.symm
      have hdiv : (Q * 10 ^ 2 + w * 10) / 10 ^ 2 = Q := by
        rw [Nat.add_comm (Q * 10 ^ 2) (w * 10),
          Nat.add_mul_div_right _ _ (show (0:ℕ) < 10 ^ 2 from by positivity),
          Nat.div_eq_of_lt hwlt, Nat.zero_add]
      have hmod : (Q * 10 ^ 2 + w * 10) % 10 ^ 2 = w * 10 := by
        rw [Nat.add_comm (Q * 10 ^ 2) (w * 10), Nat.add_mul_mod_self_right,
          Nat.mod_eq_of_lt hwlt]
      have hnw10 : natDec (w * 10) = natDec w ++ ['0'] := by
        have h1 := natDec_mul_pow10 1 w hw1
        rw [pow_one] at h1
        rw [h1]
        rfl
      have hpz : padZeros 2 (natDec (w * 10)) = natDec w ++ ['0'] := by
        show List.replicate (2 - (natDec (w * 10)).length) '0' ++ natDec (w * 10) = _
        rw [hnw10]
        have hlen : (natDec w ++ (['0'] : Chars)).length = 2 := by
          simp only [List.length_append, List.length_cons, List.length_nil, hlenw]
          omega
        rw [hlen]
        simp
      have hfd : fixedDecimal q 2
          = (if q.num < 0 then ['-'] else [])
            ++ (natDec Q ++ '.' :: (natDec w ++ ['0'])) := by
        rw [fixedDecimal_pos q 2 (by omega), hn2, hdiv, hmod, hpz]
      rw [hL, hR, hfd, List.append_assoc]

/-- C6: documentTemplateConvertToString maps the number 1 to 1.00, 1.5 to 1.50,
1.23456 to 1.23456 and the string x to x; every string passes through
unchanged, and every number is rendered at 10-decimal precision and then
re-rendered with trailing fractional zeros trimmed but never below 2 decimals
(the trimTo2 normal form of its 10-decimal rendering). -/
theorem documentTemplateConvertToString_number_formatting :
    documentTemplateConvertToString (.vNum (Rat.mk' 1 1)) = ("1.00").data
    ∧ documentTemplateConvertToString (.vNum (Rat.mk' 3 2)) = ("1.50").data
    ∧ documentTemplateConvertToString (.vNum (Rat.mk' 3858 3125)) = ("1.23456").data
    ∧ documentTemplateConvertToString (.vStr ("x").data) = ("x").data
    ∧ (∀ s : Chars, documentTemplateConvertToString (.vStr s) = s)
    ∧ (∀ q : ℚ, documentTemplateConvertToString (.vNum q) = trimTo2 (fixedDecimal q 10)) := by
  refine ⟨by decide, by decide, by decide, rfl, fun s => rfl, fun q => ?_⟩
  exact formatFloat_eq_trimTo2 q

end Renotech
